import Mathlib

/-!
Shallow embedding of the SparseMatrix component
(src/sparse_matrix/code/src/SparseMatrix.py) and proofs about its
specification.  Python strings are modelled as lists of characters,
Python dicts keyed by coordinate pairs as association lists with unique
keys, and every raising operation returns an explicit error value.
-/

namespace SpMat

/-! ## Python string primitives -/

/-- Characters removed by the Python no-argument strip call. -/
def isPySpace (c : Char) : Bool :=
  c == ' ' || c == '\t' || c == '\n' || c == '\r' || c == '\x0b' || c == '\x0c'

/-- Model of the Python strip() call: drop whitespace at both ends. -/
def pyStrip (s : List Char) : List Char :=
  ((s.dropWhile isPySpace).reverse.dropWhile isPySpace).reverse

/-- Membership test for the character set of strip with two parentheses. -/
def isParenChar (c : Char) : Bool := c == '(' || c == ')'

/-- Model of strip with the two parenthesis characters as argument:
drop leading and trailing parenthesis characters, in any mix. -/
def stripParens (s : List Char) : List Char :=
  ((s.dropWhile isParenChar).reverse.dropWhile isParenChar).reverse

/-- Model of the Python split call with the equals sign as separator. -/
def splitEq : List Char → List (List Char)
  | [] => [[]]
  | c :: rest =>
    if c = '=' then [] :: splitEq rest
    else
      match splitEq rest with
      | h :: t => (c :: h) :: t
      | [] => [[c]]

/-- Model of the Python split call with comma-space as separator. -/
def splitCS : List Char → List (List Char)
  | [] => [[]]
  | [c] => [[c]]
  | c :: d :: rest =>
    if c = ',' ∧ d = ' ' then [] :: splitCS rest
    else
      match splitCS (d :: rest) with
      | h :: t => (c :: h) :: t
      | [] => [[c]]

/-- Split a file text into its lines at newline characters.  This models
reading the file line by line: readline k yields entry k (or an empty
string at end of file) and iteration yields the remaining entries. -/
def splitNL : List Char → List (List Char)
  | [] => [[]]
  | c :: rest =>
    if c = '\n' then [] :: splitNL rest
    else
      match splitNL rest with
      | h :: t => (c :: h) :: t
      | [] => [[c]]

/-! ## Python integer literal parsing and printing -/

def isDigitChar (c : Char) : Bool := 48 ≤ c.toNat && c.toNat ≤ 57

def digitVal (c : Char) : Nat := c.toNat - 48

/-- Digit-string evaluator for the Python int constructor: a run of
decimal digits where single underscores may sit between digits. -/
def pyDigitsAux (acc : Nat) : List Char → Option Nat
  | [] => some acc
  | c :: rest =>
    if isDigitChar c then pyDigitsAux (10 * acc + digitVal c) rest
    else if c == '_' then
      match rest with
      | d :: rest2 =>
        if isDigitChar d then pyDigitsAux (10 * acc + digitVal d) rest2 else none
      | [] => none
    else none

/-- Unsigned part of the Python int constructor: must start with a digit. -/
def pyUInt (s : List Char) : Option Nat :=
  match s with
  | [] => none
  | c :: _ => if isDigitChar c then pyDigitsAux 0 s else none

/-- Sign handling of the Python int constructor, applied to the
already-stripped text: an optional sign precedes the digits, and any
other shape is a ValueError, modelled as none. -/
def pyIntCore : List Char → Option Int
  | [] => none
  | c :: rest =>
    if c == '+' then (pyUInt rest).map (fun n => (n : Int))
    else if c == '-' then (pyUInt rest).map (fun n => -(n : Int))
    else (pyUInt (c :: rest)).map (fun n => (n : Int))

/-- Model of the Python int constructor on a string: surrounding
whitespace is ignored, then the sign and digit grammar above. -/
def pyInt (s : List Char) : Option Int :=
  pyIntCore (pyStrip s)

def digitChar (n : Nat) : Char := Char.ofNat (48 + n)

/-- Fuel-indexed decimal rendering of a natural number, most significant
digit first.  The fuel argument only bounds the recursion depth. -/
def natToCharsAux : Nat → Nat → List Char
  | 0, _ => []
  | fuel + 1, n =>
    if n < 10 then [digitChar n]
    else natToCharsAux fuel (n / 10) ++ [digitChar (n % 10)]

/-- Decimal rendering of a natural number, as Python str produces it. -/
def natToChars (n : Nat) : List Char := natToCharsAux (n + 1) n

/-- Decimal rendering of an integer, as Python str produces it. -/
def intToChars (i : Int) : List Char :=
  if i < 0 then '-' :: natToChars i.natAbs else natToChars i.toNat

/-! ## The dictionary model -/

abbrev Coord := Int × Int

abbrev Entries := List (Coord × Int)

/-- Dictionary lookup, modelling the Python get call on the dict. -/
def dictGet (d : Entries) (k : Coord) : Option Int :=
  match d with
  | [] => none
  | e :: t => if e.1 = k then some e.2 else dictGet t k

/-- Dictionary store: overwrite in place when the key is present,
append at the end otherwise, as Python dict assignment does. -/
def dictInsert (k : Coord) (v : Int) : Entries → Entries
  | [] => [(k, v)]
  | e :: t => if e.1 = k then (k, v) :: t else e :: dictInsert k v t

/-- Dictionary deletion of one key, modelling the Python del statement. -/
def dictErase (k : Coord) : Entries → Entries
  | [] => []
  | e :: t => if e.1 = k then t else e :: dictErase k t

/-- Membership of a key, modelling the Python in operator on the dict. -/
def dictMem (k : Coord) (d : Entries) : Bool := (dictGet d k).isSome

/-! ## The SparseMatrix data type and its operations -/

structure SparseMatrix where
  rows : Int
  cols : Int
  matrix : Entries
deriving DecidableEq, Repr

instance {ε α : Type} [DecidableEq ε] [DecidableEq α] : DecidableEq (Except ε α) := fun a b =>
  match a, b with
  | .ok x, .ok y =>
    if h : x = y then .isTrue (by rw [h]) else .isFalse (by intro hc; cases hc; exact h rfl)
  | .error x, .error y =>
    if h : x = y then .isTrue (by rw [h]) else .isFalse (by intro hc; cases hc; exact h rfl)
  | .ok _, .error _ => .isFalse (by intro hc; cases hc)
  | .error _, .ok _ => .isFalse (by intro hc; cases hc)

/-- Error kinds of the component.  The source raises ValueError at each
of these sites; the spec names them FormatError, DimensionMismatch and
InvalidArgument respectively, by raise site. -/
inductive MatrixError where
  | formatError
  | dimensionMismatch
  | invalidArgument
deriving DecidableEq, Repr

/-- Embedding of SparseMatrix.get_element: the stored value, or 0. -/
def SparseMatrix.get_element (m : SparseMatrix) (row col : Int) : Int :=
  (dictGet m.matrix (row, col)).getD 0

/-- Embedding of SparseMatrix.set_element: store a non-zero value,
delete the key on a zero value when present, otherwise do nothing.
The mutation becomes explicit state passing. -/
def SparseMatrix.set_element (m : SparseMatrix) (row col value : Int) : SparseMatrix :=
  if value ≠ 0 then { m with matrix := dictInsert (row, col) value m.matrix }
  else if dictMem (row, col) m.matrix then { m with matrix := dictErase (row, col) m.matrix }
  else m

/-- First loop of add and of subtract: copy every entry of the operand
into the result through set_element. -/
def seedFold (L : Entries) (r0 : SparseMatrix) : SparseMatrix :=
  L.foldl (fun r e => r.set_element e.1.1 e.1.2 e.2) r0

/-- Second loop of add and of subtract: combine each entry of the other
operand with the current result cell through set_element.  The f
argument is addition for add and subtraction for subtract. -/
def accumFold (f : Int → Int → Int) (L : Entries) (r0 : SparseMatrix) : SparseMatrix :=
  L.foldl (fun r e => r.set_element e.1.1 e.1.2 (f (r.get_element e.1.1 e.1.2) e.2)) r0

/-- Embedding of SparseMatrix.add: dimension guard, then seed the fresh
result with the entries of the left operand and fold the entries of the
right operand into it, all through set_element. -/
def SparseMatrix.add (a b : SparseMatrix) : Except MatrixError SparseMatrix :=
  if a.rows ≠ b.rows ∨ a.cols ≠ b.cols then .error .dimensionMismatch
  else .ok (accumFold (fun x y => x + y) b.matrix (seedFold a.matrix ⟨a.rows, a.cols, []⟩))

/-- Embedding of SparseMatrix.subtract, identical to add but with the
difference folded in. -/
def SparseMatrix.subtract (a b : SparseMatrix) : Except MatrixError SparseMatrix :=
  if a.rows ≠ b.rows ∨ a.cols ≠ b.cols then .error .dimensionMismatch
  else .ok (accumFold (fun x y => x - y) b.matrix (seedFold a.matrix ⟨a.rows, a.cols, []⟩))

/-- Dot product of row i of a and column j of b over the k range of the
source, as the sum expression inside multiply computes it. -/
def dotProd (a b : SparseMatrix) (i j : Int) : Int :=
  ((List.range a.cols.toNat).map
    (fun k => a.get_element i (k : Int) * b.get_element (k : Int) j)).sum

/-- Body of the inner column loop of multiply at a fixed row index,
run over the remaining column indices: compute the dot product and
store it through set_element when it is non-zero. -/
def mulInnerGo (a b : SparseMatrix) (i : Nat) : List Nat → SparseMatrix → SparseMatrix
  | [], r => r
  | j :: js, r =>
    let value := dotProd a b (i : Int) (j : Int)
    mulInnerGo a b i js (if value ≠ 0 then r.set_element (i : Int) (j : Int) value else r)

/-- Inner column loop of multiply at a fixed row index.  Python range
over a negative bound is empty, which toNat reproduces. -/
def mulInner (a b : SparseMatrix) (i : Nat) (r0 : SparseMatrix) : SparseMatrix :=
  mulInnerGo a b i (List.range b.cols.toNat) r0

/-- Body of the outer row loop of multiply, run over the remaining row
indices. -/
def mulOuterGo (a b : SparseMatrix) : List Nat → SparseMatrix → SparseMatrix
  | [], r => r
  | i :: is2, r => mulOuterGo a b is2 (mulInner a b i r)

/-- Embedding of SparseMatrix.multiply: dimension guard, then the outer
row loop, each iteration running the inner column loop above. -/
def SparseMatrix.multiply (a b : SparseMatrix) : Except MatrixError SparseMatrix :=
  if a.cols ≠ b.rows then .error .dimensionMismatch
  else .ok (mulOuterGo a b (List.range a.rows.toNat) ⟨a.rows, b.cols, []⟩)

/-! ## Parsing (read_matrix_from_file) -/

/-- One header line: strip the line, split at the equals signs, take
index 1 (an IndexError when absent becomes none) and parse it as a
Python int (a ValueError becomes none). -/
def parseHeaderLine (l : List Char) : Option Int :=
  match splitEq (pyStrip l) with
  | _ :: p :: _ => pyInt p
  | _ => none

/-- One entry line (already whitespace-stripped and non-blank): strip
parenthesis characters at both ends, split at comma-space, and unpack
exactly three Python ints. -/
def parseEntryLine (s : List Char) : Option (Coord × Int) :=
  match splitCS (stripParens s) with
  | [a, b, c] => do
    let r ← pyInt a
    let cc ← pyInt b
    let v ← pyInt c
    some ((r, cc), v)
  | _ => none

/-- The entry loop of read_matrix_from_file: skip blank lines, parse
each other line and assign it into the dictionary, failing the whole
load on the first malformed line. -/
def parseEntries : Entries → List (List Char) → Option Entries
  | acc, [] => some acc
  | acc, l :: rest =>
    let s := pyStrip l
    if s = [] then parseEntries acc rest
    else
      match parseEntryLine s with
      | none => none
      | some ((r, c), v) => parseEntries (dictInsert (r, c) v acc) rest

/-- Embedding of SparseMatrix.read_matrix_from_file on the text of the
file: two header reads, then the entry loop; any IndexError or
ValueError inside the try block becomes the format error. -/
def read_matrix_from_file (text : List Char) : Except MatrixError (Int × Int × Entries) :=
  let lines := splitNL text
  match parseHeaderLine (lines.getD 0 []) with
  | none => .error .formatError
  | some rows =>
    match parseHeaderLine (lines.getD 1 []) with
    | none => .error .formatError
    | some cols =>
      match parseEntries [] (lines.drop 2) with
      | none => .error .formatError
      | some m => .ok (rows, cols, m)

/-! ## Construction -/

/-- The two dimension branches of the constructor: both dimensions
present gives the empty matrix, anything else is the invalid argument
error. -/
def initNoFile (mr mc : Option Int) : Except MatrixError SparseMatrix :=
  match mr, mc with
  | some r, some c => .ok ⟨r, c, []⟩
  | _, _ => .error .invalidArgument

/-- Embedding of the constructor.  The fs argument models the file
system, mapping a path to the text of the file at that path.  A none
path, or the empty string (falsy in Python), selects the dimension
branches. -/
def init (fs : String → List Char) :
    Option String → Option Int → Option Int → Except MatrixError SparseMatrix
  | some p, mr, mc =>
    if p = "" then initNoFile mr mc
    else (read_matrix_from_file (fs p)).map (fun t => ⟨t.1, t.2.1, t.2.2⟩)
  | none, mr, mc => initNoFile mr mc

/-! ## Serialization (write_matrix_to_file) -/

/-- Order in which Python sorted arranges the dictionary items: tuples
compared lexicographically, key first and value second. -/
def pyTupleLe (e f : Coord × Int) : Prop :=
  e.1.1 < f.1.1 ∨ (e.1.1 = f.1.1 ∧ (e.1.2 < f.1.2 ∨ (e.1.2 = f.1.2 ∧ e.2 ≤ f.2)))

instance : DecidableRel pyTupleLe := fun e f => by
  unfold pyTupleLe; infer_instance

/-! ## Ordering instances for the Python sorted call -/

instance : IsTrans (Coord × Int) pyTupleLe :=
  ⟨fun a b c hab hbc => by
    unfold pyTupleLe at *
    omega⟩

instance : IsTotal (Coord × Int) pyTupleLe :=
  ⟨fun a b => by
    unfold pyTupleLe
    omega⟩

instance : IsAntisymm (Coord × Int) pyTupleLe :=
  ⟨fun a b hab hba => by
    unfold pyTupleLe at hab hba
    have h1 : a.1.1 = b.1.1 := by omega
    have h2 : a.1.2 = b.1.2 := by omega
    have h3 : a.2 = b.2 := by omega
    exact Prod.ext (Prod.ext h1 h2) h3⟩


/-- Text between the parentheses of one serialized entry. -/
def innerChars (e : Coord × Int) : List Char :=
  intToChars e.1.1 ++ (',' :: ' ' :: (intToChars e.1.2 ++ (',' :: ' ' :: intToChars e.2)))

/-- Text of one serialized entry, without its trailing newline. -/
def entryBody (e : Coord × Int) : List Char :=
  '(' :: (innerChars e ++ [')'])

/-- Text of one serialized entry, with its trailing newline. -/
def entryLineChars (e : Coord × Int) : List Char :=
  entryBody e ++ ['\n']

/-- Embedding of SparseMatrix.write_matrix_to_file: the two header
lines followed by one line per dictionary item in Python sorted order. -/
def write_matrix_to_file (m : SparseMatrix) : List Char :=
  ("rows=".data ++ intToChars m.rows ++ ['\n']) ++
  ("cols=".data ++ intToChars m.cols ++ ['\n']) ++
  ((List.insertionSort pyTupleLe m.matrix).map entryLineChars).flatten

/-! ## Invariant predicates -/

/-- Keys of the dictionary are pairwise distinct, as the keys of a
Python dict are by construction. -/
def NodupKeys (d : Entries) : Prop := (d.map Prod.fst).Nodup

instance (d : Entries) : Decidable (NodupKeys d) := by unfold NodupKeys; infer_instance

/-- No stored entry carries the value 0 (the sparsity invariant). -/
def NoZeros (d : Entries) : Prop := ∀ e ∈ d, e.2 ≠ 0

instance (d : Entries) : Decidable (NoZeros d) := by unfold NoZeros; infer_instance

/-- Every stored coordinate lies inside the declared dimensions. -/
def InBounds (m : SparseMatrix) : Prop :=
  ∀ e ∈ m.matrix, 0 ≤ e.1.1 ∧ e.1.1 < m.rows ∧ 0 ≤ e.1.2 ∧ e.1.2 < m.cols

instance (m : SparseMatrix) : Decidable (InBounds m) := by unfold InBounds; infer_instance

/-! ## Heap model of the arithmetic methods

Python objects live on a heap and the methods mutate them through
references.  To settle the frame claims, the three arithmetic methods
are re-embedded over an explicit heap: references are indices into a
list of matrix objects, the result is allocated fresh at the end of the
heap, and each set_element call is a store through the result
reference, exactly the only reference the source ever writes. -/

abbrev Heap := List SparseMatrix

def heapGet (h : Heap) (r : Nat) : SparseMatrix := h.getD r ⟨0, 0, []⟩

def hSet (h : Heap) (r : Nat) (m : SparseMatrix) : Heap := h.set r m

/-- A set_element call on the object behind reference r. -/
def hSetElement (h : Heap) (r : Nat) (row col v : Int) : Heap :=
  hSet h r ((heapGet h r).set_element row col v)

/-- Heap embedding of add: guard, fresh allocation, the two entry
loops writing only through the result reference. -/
def addH (h0 : Heap) (a b : Nat) : Except MatrixError (Heap × Nat) :=
  if (heapGet h0 a).rows ≠ (heapGet h0 b).rows ∨
      (heapGet h0 a).cols ≠ (heapGet h0 b).cols then .error .dimensionMismatch
  else
    let rr := h0.length
    let h1 := h0 ++ [⟨(heapGet h0 a).rows, (heapGet h0 a).cols, []⟩]
    let h2 := (heapGet h1 a).matrix.foldl (fun h e => hSetElement h rr e.1.1 e.1.2 e.2) h1
    let h3 := (heapGet h2 b).matrix.foldl
      (fun h e =>
        hSetElement h rr e.1.1 e.1.2 ((heapGet h rr).get_element e.1.1 e.1.2 + e.2)) h2
    .ok (h3, rr)

/-- Heap embedding of subtract. -/
def subtractH (h0 : Heap) (a b : Nat) : Except MatrixError (Heap × Nat) :=
  if (heapGet h0 a).rows ≠ (heapGet h0 b).rows ∨
      (heapGet h0 a).cols ≠ (heapGet h0 b).cols then .error .dimensionMismatch
  else
    let rr := h0.length
    let h1 := h0 ++ [⟨(heapGet h0 a).rows, (heapGet h0 a).cols, []⟩]
    let h2 := (heapGet h1 a).matrix.foldl (fun h e => hSetElement h rr e.1.1 e.1.2 e.2) h1
    let h3 := (heapGet h2 b).matrix.foldl
      (fun h e =>
        hSetElement h rr e.1.1 e.1.2 ((heapGet h rr).get_element e.1.1 e.1.2 - e.2)) h2
    .ok (h3, rr)

/-- Heap embedding of multiply: the dot product reads the operands from
the current heap, the store goes through the result reference. -/
def multiplyH (h0 : Heap) (a b : Nat) : Except MatrixError (Heap × Nat) :=
  if (heapGet h0 a).cols ≠ (heapGet h0 b).rows then .error .dimensionMismatch
  else
    let rr := h0.length
    let h1 := h0 ++ [⟨(heapGet h0 a).rows, (heapGet h0 b).cols, []⟩]
    let h2 := (List.range (heapGet h0 a).rows.toNat).foldl (fun h i =>
      (List.range (heapGet h0 b).cols.toNat).foldl (fun h j =>
        let value := dotProd (heapGet h a) (heapGet h b) (i : Int) (j : Int)
        if value ≠ 0 then hSetElement h rr (i : Int) (j : Int) value else h) h) h1
    .ok (h2, rr)

/-! ## Spec-side definitions for the parsing refinement claim -/

/-- Modelled from the spec, section 6: an integer field of an entry
line, an optional minus sign followed by decimal digits. -/
def specIntLiteral (s : List Char) : Bool :=
  match s with
  | '-' :: t => !t.isEmpty && t.all isDigitChar
  | t => !t.isEmpty && t.all isDigitChar

/-- Modelled from the spec, section 6: a well-formed entry line is a
parenthesized, comma-and-space-separated triple of integers. -/
def specEntryLineWellFormed (s : List Char) : Bool :=
  match s with
  | '(' :: rest =>
    rest.getLast? == some ')' &&
    (splitCS rest.dropLast).length == 3 &&
    (splitCS rest.dropLast).all specIntLiteral
  | _ => false

/-- Header failure condition of the amended parsing claim: the line,
after whitespace stripping, has no field after the first equals sign,
or that field is not a Python integer literal. -/
def headerLineBad (l : List Char) : Bool :=
  match splitEq (pyStrip l) with
  | _ :: p :: _ => (pyInt p).isNone
  | _ => true

/-- Entry failure condition of the amended parsing claim: the line is
not blank after whitespace stripping, and after stripping parenthesis
characters at both ends it does not split at comma-space separators
into exactly three Python integer literals. -/
def entryLineBad (l : List Char) : Bool :=
  !(pyStrip l).isEmpty &&
    match splitCS (stripParens (pyStrip l)) with
    | [x, y, z] => (pyInt x).isNone || (pyInt y).isNone || (pyInt z).isNone
    | _ => true

/-- Characters that are all decimal digits. -/
def allDigits (l : List Char) : Prop := ∀ c ∈ l, isDigitChar c = true

/-- Value of a digit string read most significant digit first, on top
of an accumulator. -/
def digitsToNat (acc : Nat) (l : List Char) : Nat :=
  l.foldl (fun a c => 10 * a + digitVal c) acc

/-! ## Dictionary lemmas -/

theorem dictGet_nil (k : Coord) : dictGet [] k = none := rfl

theorem dictGet_cons (e : Coord × Int) (t : Entries) (k : Coord) :
    dictGet (e :: t) k = if e.1 = k then some e.2 else dictGet t k := rfl

theorem dictInsert_nil (k : Coord) (v : Int) : dictInsert k v [] = [(k, v)] := rfl

theorem dictInsert_cons (k : Coord) (v : Int) (e : Coord × Int) (t : Entries) :
    dictInsert k v (e :: t) = if e.1 = k then (k, v) :: t else e :: dictInsert k v t := rfl

theorem dictErase_nil (k : Coord) : dictErase k [] = [] := rfl

theorem dictErase_cons (k : Coord) (e : Coord × Int) (t : Entries) :
    dictErase k (e :: t) = if e.1 = k then t else e :: dictErase k t := rfl

theorem dictGet_insert_self (d : Entries) (k : Coord) (v : Int) :
    dictGet (dictInsert k v d) k = some v := by
  induction d with
  | nil => simp [dictInsert_nil, dictGet_cons]
  | cons e t ih =>
    by_cases h : e.1 = k
    · simp [dictInsert_cons, h, dictGet_cons]
    · simp [dictInsert_cons, h, dictGet_cons, ih]

theorem dictGet_insert_ne (d : Entries) (k k' : Coord) (v : Int) (h : k' ≠ k) :
    dictGet (dictInsert k v d) k' = dictGet d k' := by
  have h' : ¬ (k = k') := fun hc => h hc.symm
  induction d with
  | nil => simp [dictInsert_nil, dictGet_cons, dictGet_nil, h']
  | cons e t ih =>
    by_cases he : e.1 = k
    · have he' : ¬ (e.1 = k') := fun hc => h' (he.symm.trans hc)
      rw [dictInsert_cons, if_pos he, dictGet_cons, dictGet_cons, if_neg he']
      show (if k = k' then some v else dictGet t k') = dictGet t k'
      rw [if_neg h']
    · rw [dictInsert_cons, if_neg he, dictGet_cons, dictGet_cons]
      by_cases he' : e.1 = k'
      · rw [if_pos he', if_pos he']
      · rw [if_neg he', if_neg he', ih]

theorem dictGet_erase_ne (d : Entries) (k k' : Coord) (h : k' ≠ k) :
    dictGet (dictErase k d) k' = dictGet d k' := by
  induction d with
  | nil => simp [dictErase_nil]
  | cons e t ih =>
    by_cases he : e.1 = k
    · have he' : ¬ (e.1 = k') := fun hc => h (hc.symm.trans he)
      rw [dictErase_cons, if_pos he, dictGet_cons, if_neg he']
    · rw [dictErase_cons, if_neg he, dictGet_cons, dictGet_cons]
      by_cases he' : e.1 = k'
      · rw [if_pos he', if_pos he']
      · rw [if_neg he', if_neg he', ih]

theorem dictGet_mem (d : Entries) (k : Coord) (v : Int) (h : dictGet d k = some v) :
    (k, v) ∈ d := by
  induction d with
  | nil => simp [dictGet_nil] at h
  | cons e t ih =>
    by_cases he : e.1 = k
    · rw [dictGet_cons, if_pos he] at h
      injection h with h2
      subst h2
      subst he
      cases e with
      | mk k2 v2 => exact List.mem_cons_self _ _
    · rw [dictGet_cons, if_neg he] at h
      exact List.mem_cons_of_mem _ (ih h)

theorem dictGet_eq_none_iff (d : Entries) (k : Coord) :
    dictGet d k = none ↔ k ∉ d.map Prod.fst := by
  induction d with
  | nil => simp [dictGet_nil]
  | cons e t ih =>
    by_cases he : e.1 = k
    · rw [dictGet_cons, if_pos he, List.map_cons]
      simp only [List.mem_cons]
      constructor
      · intro hc
        cases hc
      · intro hk
        exact absurd (Or.inl he.symm) hk
    · rw [dictGet_cons, if_neg he, ih, List.map_cons]
      simp only [List.mem_cons]
      constructor
      · intro hk hc
        rcases hc with hc | hc
        · exact he hc.symm
        · exact hk hc
      · intro hk hc
        exact hk (Or.inr hc)

theorem dictGet_isSome_iff (d : Entries) (k : Coord) :
    (dictGet d k).isSome = true ↔ k ∈ d.map Prod.fst := by
  rw [← Decidable.not_iff_not, ← dictGet_eq_none_iff d k]
  cases dictGet d k <;> simp

theorem dictGet_erase_self (d : Entries) (k : Coord) (hnd : NodupKeys d) :
    dictGet (dictErase k d) k = none := by
  induction d with
  | nil => simp [dictErase, dictGet]
  | cons e t ih =>
    rw [NodupKeys, List.map_cons, List.nodup_cons] at hnd
    by_cases he : e.1 = k
    · simp only [dictErase, he, if_true]
      rw [dictGet_eq_none_iff]
      exact he ▸ hnd.1
    · simp [dictErase, he, dictGet, ih hnd.2]

theorem mem_keys_insert (d : Entries) (k k' : Coord) (v : Int) :
    k' ∈ (dictInsert k v d).map Prod.fst ↔ k' = k ∨ k' ∈ d.map Prod.fst := by
  induction d with
  | nil => simp [dictInsert]
  | cons e t ih =>
    by_cases he : e.1 = k
    · subst he
      simp [dictInsert]
    · simp only [dictInsert, he, if_false, List.map_cons, List.mem_cons, ih]
      tauto

theorem mem_keys_erase (d : Entries) (k k' : Coord)
    (h : k' ∈ (dictErase k d).map Prod.fst) : k' ∈ d.map Prod.fst := by
  induction d with
  | nil => simp [dictErase] at h
  | cons e t ih =>
    by_cases he : e.1 = k
    · simp only [dictErase, he, if_true] at h
      simp [h]
    · simp only [dictErase, he, if_false, List.map_cons, List.mem_cons] at h ⊢
      tauto

theorem nodup_insert (d : Entries) (k : Coord) (v : Int) (hnd : NodupKeys d) :
    NodupKeys (dictInsert k v d) := by
  induction d with
  | nil => simp [dictInsert, NodupKeys]
  | cons e t ih =>
    rw [NodupKeys, List.map_cons, List.nodup_cons] at hnd
    by_cases he : e.1 = k
    · rw [NodupKeys, dictInsert, if_pos he, List.map_cons, List.nodup_cons]
      exact ⟨he ▸ hnd.1, hnd.2⟩
    · rw [NodupKeys, dictInsert, if_neg he, List.map_cons, List.nodup_cons]
      refine ⟨?_, ih hnd.2⟩
      rw [mem_keys_insert]
      push_neg
      exact ⟨he, hnd.1⟩

theorem nodup_erase (d : Entries) (k : Coord) (hnd : NodupKeys d) :
    NodupKeys (dictErase k d) := by
  induction d with
  | nil => simp [dictErase, NodupKeys]
  | cons e t ih =>
    rw [NodupKeys, List.map_cons, List.nodup_cons] at hnd
    by_cases he : e.1 = k
    · rw [dictErase, if_pos he]
      exact hnd.2
    · rw [NodupKeys, dictErase, if_neg he, List.map_cons, List.nodup_cons]
      exact ⟨fun hc => hnd.1 (mem_keys_erase t k e.1 hc), ih hnd.2⟩

theorem mem_of_mem_insert (d : Entries) (k : Coord) (v : Int) (e : Coord × Int)
    (h : e ∈ dictInsert k v d) : e = (k, v) ∨ e ∈ d := by
  induction d with
  | nil => simp [dictInsert] at h; simp [h]
  | cons f t ih =>
    by_cases hf : f.1 = k
    · rw [dictInsert, if_pos hf] at h
      rcases List.mem_cons.mp h with h | h
      · exact Or.inl h
      · exact Or.inr (List.mem_cons_of_mem _ h)
    · rw [dictInsert, if_neg hf] at h
      rcases List.mem_cons.mp h with h | h
      · exact Or.inr (h ▸ List.mem_cons_self _ _)
      · rcases ih h with h | h
        · exact Or.inl h
        · exact Or.inr (List.mem_cons_of_mem _ h)

theorem mem_of_mem_erase (d : Entries) (k : Coord) (e : Coord × Int)
    (h : e ∈ dictErase k d) : e ∈ d := by
  induction d with
  | nil => simp [dictErase] at h
  | cons f t ih =>
    by_cases hf : f.1 = k
    · rw [dictErase, if_pos hf] at h
      exact List.mem_cons_of_mem _ h
    · rw [dictErase, if_neg hf] at h
      rcases List.mem_cons.mp h with h | h
      · exact h ▸ List.mem_cons_self _ _
      · exact List.mem_cons_of_mem _ (ih h)

/-! ## Lemmas about set_element and get_element -/

theorem set_element_rows (m : SparseMatrix) (r c v : Int) :
    (m.set_element r c v).rows = m.rows := by
  unfold SparseMatrix.set_element
  split
  · rfl
  · split <;> rfl

theorem set_element_cols (m : SparseMatrix) (r c v : Int) :
    (m.set_element r c v).cols = m.cols := by
  unfold SparseMatrix.set_element
  split
  · rfl
  · split <;> rfl

theorem get_set_self (m : SparseMatrix) (r c v : Int) (hnd : NodupKeys m.matrix) :
    (m.set_element r c v).get_element r c = v := by
  unfold SparseMatrix.set_element SparseMatrix.get_element
  by_cases hv : v = 0
  · rw [if_neg (by simpa using hv)]
    by_cases hm : dictMem (r, c) m.matrix
    · rw [if_pos hm]
      simp [dictGet_erase_self m.matrix (r, c) hnd, hv]
    · rw [if_neg hm]
      rw [dictMem, Bool.not_eq_true, Bool.eq_false_iff] at hm
      have : dictGet m.matrix (r, c) = none := by
        cases h : dictGet m.matrix (r, c)
        · rfl
        · exact absurd (by simp [h]) hm
      simp [this, hv]
  · rw [if_pos (by simpa using hv)]
    simp [dictGet_insert_self]

theorem get_set_ne (m : SparseMatrix) (r c v r' c' : Int) (h : (r', c') ≠ (r, c)) :
    (m.set_element r c v).get_element r' c' = m.get_element r' c' := by
  unfold SparseMatrix.set_element SparseMatrix.get_element
  split
  · simp [dictGet_insert_ne _ _ _ _ h]
  · split
    · simp [dictGet_erase_ne _ _ _ h]
    · rfl

theorem nodup_set (m : SparseMatrix) (r c v : Int) (hnd : NodupKeys m.matrix) :
    NodupKeys (m.set_element r c v).matrix := by
  unfold SparseMatrix.set_element
  split
  · exact nodup_insert _ _ _ hnd
  · split
    · exact nodup_erase _ _ hnd
    · exact hnd

theorem noZeros_set (m : SparseMatrix) (r c v : Int) (hnz : NoZeros m.matrix) :
    NoZeros (m.set_element r c v).matrix := by
  unfold SparseMatrix.set_element
  split
  · intro e he
    rcases mem_of_mem_insert _ _ _ _ he with h | h
    · subst h; simpa using (by assumption : v ≠ 0)
    · exact hnz e h
  · split
    · exact fun e he => hnz e (mem_of_mem_erase _ _ _ he)
    · exact hnz

theorem mem_keys_set (m : SparseMatrix) (r c v : Int) (k : Coord)
    (h : k ∈ (m.set_element r c v).matrix.map Prod.fst) :
    k = (r, c) ∨ k ∈ m.matrix.map Prod.fst := by
  revert h
  unfold SparseMatrix.set_element
  split
  · intro h
    exact (mem_keys_insert _ _ _ _).mp h
  · split
    · intro h
      exact Or.inr (mem_keys_erase _ _ _ h)
    · intro h
      exact Or.inr h

theorem noZeros_not_mem_of_get_zero (m : SparseMatrix) (i j : Int)
    (hnz : NoZeros m.matrix) (h : m.get_element i j = 0) :
    dictMem (i, j) m.matrix = false := by
  unfold dictMem
  cases hg : dictGet m.matrix (i, j) with
  | none => rfl
  | some v =>
    have hv := hnz _ (dictGet_mem _ _ _ hg)
    rw [SparseMatrix.get_element, hg] at h
    simp at h
    exact absurd h hv

/-! ## Lemmas about the two loops of add and subtract -/

theorem seedFold_nil (r0 : SparseMatrix) : seedFold [] r0 = r0 := rfl

theorem seedFold_cons (e : Coord × Int) (t : Entries) (r0 : SparseMatrix) :
    seedFold (e :: t) r0 = seedFold t (r0.set_element e.1.1 e.1.2 e.2) := rfl

theorem accumFold_nil (f : Int → Int → Int) (r0 : SparseMatrix) : accumFold f [] r0 = r0 := rfl

theorem accumFold_cons (f : Int → Int → Int) (e : Coord × Int) (t : Entries)
    (r0 : SparseMatrix) :
    accumFold f (e :: t) r0 =
      accumFold f t (r0.set_element e.1.1 e.1.2 (f (r0.get_element e.1.1 e.1.2) e.2)) := rfl

theorem seedFold_rows (L : Entries) (r0 : SparseMatrix) : (seedFold L r0).rows = r0.rows := by
  induction L generalizing r0 with
  | nil => rfl
  | cons e t ih => rw [seedFold_cons, ih, set_element_rows]

theorem seedFold_cols (L : Entries) (r0 : SparseMatrix) : (seedFold L r0).cols = r0.cols := by
  induction L generalizing r0 with
  | nil => rfl
  | cons e t ih => rw [seedFold_cons, ih, set_element_cols]

theorem accumFold_rows (f : Int → Int → Int) (L : Entries) (r0 : SparseMatrix) :
    (accumFold f L r0).rows = r0.rows := by
  induction L generalizing r0 with
  | nil => rfl
  | cons e t ih => rw [accumFold_cons, ih, set_element_rows]

theorem accumFold_cols (f : Int → Int → Int) (L : Entries) (r0 : SparseMatrix) :
    (accumFold f L r0).cols = r0.cols := by
  induction L generalizing r0 with
  | nil => rfl
  | cons e t ih => rw [accumFold_cons, ih, set_element_cols]

theorem seedFold_nodup (L : Entries) (r0 : SparseMatrix) (hnd : NodupKeys r0.matrix) :
    NodupKeys (seedFold L r0).matrix := by
  induction L generalizing r0 with
  | nil => exact hnd
  | cons e t ih => exact seedFold_cons e t r0 ▸ ih _ (nodup_set _ _ _ _ hnd)

theorem accumFold_nodup (f : Int → Int → Int) (L : Entries) (r0 : SparseMatrix)
    (hnd : NodupKeys r0.matrix) : NodupKeys (accumFold f L r0).matrix := by
  induction L generalizing r0 with
  | nil => exact hnd
  | cons e t ih => exact accumFold_cons f e t r0 ▸ ih _ (nodup_set _ _ _ _ hnd)

theorem seedFold_noZeros (L : Entries) (r0 : SparseMatrix) (hnz : NoZeros r0.matrix) :
    NoZeros (seedFold L r0).matrix := by
  induction L generalizing r0 with
  | nil => exact hnz
  | cons e t ih => exact seedFold_cons e t r0 ▸ ih _ (noZeros_set _ _ _ _ hnz)

theorem accumFold_noZeros (f : Int → Int → Int) (L : Entries) (r0 : SparseMatrix)
    (hnz : NoZeros r0.matrix) : NoZeros (accumFold f L r0).matrix := by
  induction L generalizing r0 with
  | nil => exact hnz
  | cons e t ih => exact accumFold_cons f e t r0 ▸ ih _ (noZeros_set _ _ _ _ hnz)

theorem seedFold_keys (L : Entries) (r0 : SparseMatrix) (k : Coord)
    (h : k ∈ (seedFold L r0).matrix.map Prod.fst) :
    k ∈ r0.matrix.map Prod.fst ∨ k ∈ L.map Prod.fst := by
  induction L generalizing r0 with
  | nil => exact Or.inl h
  | cons e t ih =>
    rw [seedFold_cons] at h
    rcases ih _ h with h2 | h2
    · rcases mem_keys_set _ _ _ _ _ h2 with h3 | h3
      · right
        rw [List.map_cons]
        simp [h3]
      · exact Or.inl h3
    · right
      rw [List.map_cons]
      exact List.mem_cons_of_mem _ h2

theorem accumFold_keys (f : Int → Int → Int) (L : Entries) (r0 : SparseMatrix) (k : Coord)
    (h : k ∈ (accumFold f L r0).matrix.map Prod.fst) :
    k ∈ r0.matrix.map Prod.fst ∨ k ∈ L.map Prod.fst := by
  induction L generalizing r0 with
  | nil => exact Or.inl h
  | cons e t ih =>
    rw [accumFold_cons] at h
    rcases ih _ h with h2 | h2
    · rcases mem_keys_set _ _ _ _ _ h2 with h3 | h3
      · right
        rw [List.map_cons]
        simp [h3]
      · exact Or.inl h3
    · right
      rw [List.map_cons]
      exact List.mem_cons_of_mem _ h2

theorem seedFold_get (L : Entries) : ∀ (r0 : SparseMatrix), NodupKeys L →
    NodupKeys r0.matrix → ∀ (i j : Int),
    (seedFold L r0).get_element i j = (dictGet L (i, j)).getD (r0.get_element i j) := by
  induction L with
  | nil => intro r0 _ _ i j; rfl
  | cons e t ih =>
    intro r0 hndL hnd0 i j
    rw [NodupKeys, List.map_cons, List.nodup_cons] at hndL
    rw [seedFold_cons, ih _ hndL.2 (nodup_set _ _ _ _ hnd0) i j]
    cases hg : dictGet t (i, j) with
    | some v =>
      have hmem : (i, j) ∈ t.map Prod.fst := by
        rw [← dictGet_isSome_iff, hg]
        rfl
      have hne : ¬ (e.1 = (i, j)) := fun hc => hndL.1 (hc ▸ hmem)
      rw [dictGet_cons, if_neg hne, hg]
      rfl
    | none =>
      by_cases hk : e.1 = (i, j)
      · rw [dictGet_cons, if_pos hk]
        have hi : e.1.1 = i := by rw [hk]
        have hj : e.1.2 = j := by rw [hk]
        show (r0.set_element e.1.1 e.1.2 e.2).get_element i j = e.2
        rw [← hi, ← hj]
        exact get_set_self r0 e.1.1 e.1.2 e.2 hnd0
      · have hne : ((i, j) : Coord) ≠ (e.1.1, e.1.2) :=
          fun hc => hk ((hc.trans Prod.mk.eta).symm)
        rw [get_set_ne r0 _ _ _ _ _ hne, dictGet_cons, if_neg hk, hg]

theorem accumFold_get (f : Int → Int → Int) (L : Entries) : ∀ (r0 : SparseMatrix),
    NodupKeys L → NodupKeys r0.matrix → ∀ (i j : Int),
    (accumFold f L r0).get_element i j =
      ((dictGet L (i, j)).map (fun v => f (r0.get_element i j) v)).getD
        (r0.get_element i j) := by
  induction L with
  | nil => intro r0 _ _ i j; rfl
  | cons e t ih =>
    intro r0 hndL hnd0 i j
    rw [NodupKeys, List.map_cons, List.nodup_cons] at hndL
    rw [accumFold_cons, ih _ hndL.2 (nodup_set _ _ _ _ hnd0) i j]
    cases hg : dictGet t (i, j) with
    | some v =>
      have hmem : (i, j) ∈ t.map Prod.fst := by
        rw [← dictGet_isSome_iff, hg]
        rfl
      have hne : ¬ (e.1 = (i, j)) := fun hc => hndL.1 (hc ▸ hmem)
      have hne' : ((i, j) : Coord) ≠ (e.1.1, e.1.2) :=
        fun hc => hne ((hc.trans Prod.mk.eta).symm)
      rw [dictGet_cons, if_neg hne, hg]
      show f ((r0.set_element e.1.1 e.1.2 (f (r0.get_element e.1.1 e.1.2) e.2)).get_element
        i j) v = f (r0.get_element i j) v
      rw [get_set_ne r0 _ _ _ _ _ hne']
    | none =>
      by_cases hk : e.1 = (i, j)
      · rw [dictGet_cons, if_pos hk]
        have hi : e.1.1 = i := by rw [hk]
        have hj : e.1.2 = j := by rw [hk]
        show (r0.set_element e.1.1 e.1.2 (f (r0.get_element e.1.1 e.1.2) e.2)).get_element i j
          = f (r0.get_element i j) e.2
        rw [← hi, ← hj]
        exact get_set_self r0 _ _ _ hnd0
      · have hne : ((i, j) : Coord) ≠ (e.1.1, e.1.2) :=
          fun hc => hk ((hc.trans Prod.mk.eta).symm)
        rw [get_set_ne r0 _ _ _ _ _ hne, dictGet_cons, if_neg hk, hg]

theorem mem_of_mem_set (m : SparseMatrix) (r c v : Int) (e : Coord × Int)
    (h : e ∈ (m.set_element r c v).matrix) : e = ((r, c), v) ∨ e ∈ m.matrix := by
  revert h
  unfold SparseMatrix.set_element
  split
  · intro h
    exact mem_of_mem_insert _ _ _ _ h
  · split
    · intro h
      exact Or.inr (mem_of_mem_erase _ _ _ h)
    · intro h
      exact Or.inr h

theorem read_ok_inv (text : List Char) (r c : Int) (E : Entries)
    (h : read_matrix_from_file text = .ok (r, c, E)) :
    parseHeaderLine ((splitNL text).getD 0 []) = some r ∧
    parseHeaderLine ((splitNL text).getD 1 []) = some c ∧
    parseEntries [] ((splitNL text).drop 2) = some E := by
  simp only [read_matrix_from_file] at h
  cases h0 : parseHeaderLine ((splitNL text).getD 0 []) with
  | none => rw [h0] at h; cases h
  | some r2 =>
    rw [h0] at h
    cases h1 : parseHeaderLine ((splitNL text).getD 1 []) with
    | none => rw [h1] at h; cases h
    | some c2 =>
      rw [h1] at h
      cases h2 : parseEntries [] ((splitNL text).drop 2) with
      | none => rw [h2] at h; cases h
      | some E2 =>
        rw [h2] at h
        injection h with h3
        rw [Prod.mk.injEq, Prod.mk.injEq] at h3
        obtain ⟨h31, h32, h33⟩ := h3
        subst h31
        subst h32
        subst h33
        exact ⟨rfl, rfl, rfl⟩

theorem parseEntries_entry_source (ls : List (List Char)) : ∀ (acc d : Entries),
    parseEntries acc ls = some d → ∀ e ∈ d,
    e ∈ acc ∨ ∃ l ∈ ls, pyStrip l ≠ [] ∧ parseEntryLine (pyStrip l) = some e := by
  induction ls with
  | nil =>
    intro acc d h e he
    rw [parseEntries] at h
    injection h with h2
    exact Or.inl (h2 ▸ he)
  | cons l rest ih =>
    intro acc d h e he
    rw [parseEntries] at h
    by_cases hs : pyStrip l = []
    · rw [if_pos hs] at h
      rcases ih _ _ h e he with h2 | ⟨l2, hl2, h3⟩
      · exact Or.inl h2
      · exact Or.inr ⟨l2, List.mem_cons_of_mem _ hl2, h3⟩
    · rw [if_neg hs] at h
      cases hp : parseEntryLine (pyStrip l) with
      | none => rw [hp] at h; cases h
      | some ev =>
        rw [hp] at h
        have h4 : parseEntries (dictInsert ev.1 ev.2 acc) rest = some d := by
          cases ev with
          | mk k v =>
            cases k with
            | mk kr kc => exact h
        rcases ih _ _ h4 e he with h2 | ⟨l2, hl2, h3⟩
        · rcases mem_of_mem_insert _ _ _ _ h2 with h5 | h5
          · refine Or.inr ⟨l, List.mem_cons_self _ _, hs, ?_⟩
            rw [hp, h5]
          · exact Or.inl h5
        · exact Or.inr ⟨l2, List.mem_cons_of_mem _ hl2, h3⟩

/-- C1: for same-shaped operands, add returns a matrix of the same
dimensions whose logical value at every coordinate is the sum of the
operands' values there, subtract likewise the difference, and every
coordinate whose sum respectively difference is 0 is absent from the
result dictionary. -/
theorem c1_add_subtract_elementwise (A B : SparseMatrix)
    (hA : NodupKeys A.matrix) (hB : NodupKeys B.matrix)
    (hr : A.rows = B.rows) (hc : A.cols = B.cols) :
    ∃ C D : SparseMatrix,
      A.add B = .ok C ∧ A.subtract B = .ok D ∧
      C.rows = A.rows ∧ C.cols = A.cols ∧ D.rows = A.rows ∧ D.cols = A.cols ∧
      (∀ i j : Int, C.get_element i j = A.get_element i j + B.get_element i j) ∧
      (∀ i j : Int, D.get_element i j = A.get_element i j - B.get_element i j) ∧
      (∀ i j : Int, A.get_element i j + B.get_element i j = 0 →
        dictMem (i, j) C.matrix = false) ∧
      (∀ i j : Int, A.get_element i j - B.get_element i j = 0 →
        dictMem (i, j) D.matrix = false) := by
  have hguard : ¬ (A.rows ≠ B.rows ∨ A.cols ≠ B.cols) := by
    push_neg
    exact ⟨hr, hc⟩
  set S := seedFold A.matrix ⟨A.rows, A.cols, []⟩ with hS
  have hend : NodupKeys (⟨A.rows, A.cols, []⟩ : SparseMatrix).matrix := by
    simp [NodupKeys]
  have hSnd : NodupKeys S.matrix := seedFold_nodup _ _ hend
  have hSnz : NoZeros S.matrix := seedFold_noZeros _ _ (by intro e he; cases he)
  have hSget : ∀ i j : Int, S.get_element i j = A.get_element i j := by
    intro i j
    rw [hS, seedFold_get A.matrix _ hA hend i j]
    rfl
  have hFget : ∀ (f : Int → Int → Int), (∀ x, f x 0 = x) → ∀ i j : Int,
      (accumFold f B.matrix S).get_element i j
        = f (A.get_element i j) (B.get_element i j) := by
    intro f hf i j
    rw [accumFold_get f B.matrix _ hB hSnd i j]
    cases hg : dictGet B.matrix (i, j) with
    | some v =>
      have hBget : B.get_element i j = v := by
        show (dictGet B.matrix (i, j)).getD 0 = v
        rw [hg]
        rfl
      show f (S.get_element i j) v = f (A.get_element i j) (B.get_element i j)
      rw [hSget i j, hBget]
    | none =>
      have hBget : B.get_element i j = 0 := by
        show (dictGet B.matrix (i, j)).getD 0 = 0
        rw [hg]
        rfl
      show S.get_element i j = f (A.get_element i j) (B.get_element i j)
      rw [hSget i j, hBget, hf]
  have hCget := hFget (fun x y => x + y) (fun x => add_zero x)
  have hDget := hFget (fun x y => x - y) (fun x => sub_zero x)
  refine ⟨accumFold (fun x y => x + y) B.matrix S, accumFold (fun x y => x - y) B.matrix S,
    ?_, ?_, ?_, ?_, ?_, ?_, hCget, hDget, ?_, ?_⟩
  · unfold SparseMatrix.add
    rw [if_neg hguard]
  · unfold SparseMatrix.subtract
    rw [if_neg hguard]
  · rw [accumFold_rows, hS, seedFold_rows]
  · rw [accumFold_cols, hS, seedFold_cols]
  · rw [accumFold_rows, hS, seedFold_rows]
  · rw [accumFold_cols, hS, seedFold_cols]
  · intro i j hz
    exact noZeros_not_mem_of_get_zero _ i j (accumFold_noZeros _ _ _ hSnz)
      ((hCget i j).trans hz)
  · intro i j hz
    exact noZeros_not_mem_of_get_zero _ i j (accumFold_noZeros _ _ _ hSnz)
      ((hDget i j).trans hz)

theorem c1_add_subtract_elementwise_witness :
    ∃ C D : SparseMatrix,
      (⟨2, 2, [((0, 0), 1), ((1, 1), 2)]⟩ : SparseMatrix).add
        ⟨2, 2, [((0, 0), 3), ((0, 1), 4)]⟩ = .ok C ∧
      (⟨2, 2, [((0, 0), 1), ((1, 1), 2)]⟩ : SparseMatrix).subtract
        ⟨2, 2, [((0, 0), 3), ((0, 1), 4)]⟩ = .ok D ∧
      C.rows = (⟨2, 2, [((0, 0), 1), ((1, 1), 2)]⟩ : SparseMatrix).rows ∧
      C.cols = (⟨2, 2, [((0, 0), 1), ((1, 1), 2)]⟩ : SparseMatrix).cols ∧
      D.rows = (⟨2, 2, [((0, 0), 1), ((1, 1), 2)]⟩ : SparseMatrix).rows ∧
      D.cols = (⟨2, 2, [((0, 0), 1), ((1, 1), 2)]⟩ : SparseMatrix).cols ∧
      (∀ i j : Int, C.get_element i j =
        (⟨2, 2, [((0, 0), 1), ((1, 1), 2)]⟩ : SparseMatrix).get_element i j +
        (⟨2, 2, [((0, 0), 3), ((0, 1), 4)]⟩ : SparseMatrix).get_element i j) ∧
      (∀ i j : Int, D.get_element i j =
        (⟨2, 2, [((0, 0), 1), ((1, 1), 2)]⟩ : SparseMatrix).get_element i j -
        (⟨2, 2, [((0, 0), 3), ((0, 1), 4)]⟩ : SparseMatrix).get_element i j) ∧
      (∀ i j : Int, (⟨2, 2, [((0, 0), 1), ((1, 1), 2)]⟩ : SparseMatrix).get_element i j +
        (⟨2, 2, [((0, 0), 3), ((0, 1), 4)]⟩ : SparseMatrix).get_element i j = 0 →
        dictMem (i, j) C.matrix = false) ∧
      (∀ i j : Int, (⟨2, 2, [((0, 0), 1), ((1, 1), 2)]⟩ : SparseMatrix).get_element i j -
        (⟨2, 2, [((0, 0), 3), ((0, 1), 4)]⟩ : SparseMatrix).get_element i j = 0 →
        dictMem (i, j) D.matrix = false) :=
  c1_add_subtract_elementwise _ _ (by decide) (by decide) rfl rfl

/-- C6: add and subtract fail with the dimension mismatch error as soon
as the operands differ in rows or cols, and multiply fails with it when
the left cols differ from the right rows; the guard raises before any
result is built, and the operands, being values here, are untouched. -/
theorem c6_dimension_mismatch (A B : SparseMatrix) :
    (A.rows ≠ B.rows ∨ A.cols ≠ B.cols →
      A.add B = .error .dimensionMismatch ∧
      A.subtract B = .error .dimensionMismatch) ∧
    (A.cols ≠ B.rows → A.multiply B = .error .dimensionMismatch) := by
  refine ⟨fun h => ⟨?_, ?_⟩, fun h => ?_⟩
  · unfold SparseMatrix.add
    rw [if_pos h]
  · unfold SparseMatrix.subtract
    rw [if_pos h]
  · unfold SparseMatrix.multiply
    rw [if_pos h]

theorem c6_dimension_mismatch_witness :
    ((⟨1, 2, []⟩ : SparseMatrix).add ⟨2, 2, []⟩ = .error .dimensionMismatch ∧
      (⟨1, 2, []⟩ : SparseMatrix).subtract ⟨2, 2, []⟩ = .error .dimensionMismatch) ∧
    (⟨1, 2, []⟩ : SparseMatrix).multiply ⟨3, 2, []⟩ = .error .dimensionMismatch :=
  ⟨(c6_dimension_mismatch ⟨1, 2, []⟩ ⟨2, 2, []⟩).1 (by decide),
    (c6_dimension_mismatch ⟨1, 2, []⟩ ⟨3, 2, []⟩).2 (by decide)⟩

/-- C9: constructing with neither a path nor dimensions, or with only
one of rows and cols, raises the invalid argument error; constructing
with both dimensions and no path yields the empty matrix of those
dimensions. -/
theorem c9_constructor_modes (fs : String → List Char) (r c : Int) :
    init fs none none none = .error .invalidArgument ∧
    init fs none (some r) none = .error .invalidArgument ∧
    init fs none none (some c) = .error .invalidArgument ∧
    init fs none (some r) (some c) = .ok ⟨r, c, []⟩ :=
  ⟨rfl, rfl, rfl, rfl⟩

/-- C3 is a code bug: the entry loop of read_matrix_from_file stores
each parsed value without a zero check, so a file with entry (0, 0, 0)
produces a matrix whose dictionary holds a stored value 0, against the
sparsity invariant claimed by the spec and by the class docstring.
This theorem evaluates the embedded parser at that failing input. -/
theorem c3_parse_stores_zero :
    read_matrix_from_file (String.toList "rows=1\ncols=1\n(0, 0, 0)\n") =
      .ok (1, 1, [((0, 0), 0)]) ∧ ¬ NoZeros [((0, 0), 0)] :=
  ⟨by decide, by decide⟩

/-- C5 counterexample: set_element performs no bounds check, so the
empty 2 by 2 matrix accepts a store at coordinate (5, 5), and the
produced matrix violates the claimed bounds invariant. -/
theorem c5_counterexample :
    ¬ InBounds ((⟨2, 2, []⟩ : SparseMatrix).set_element 5 5 1) := by decide

/-! ## Lemmas about the multiply loops -/

theorem mulInnerGo_rows (a b : SparseMatrix) (i : Nat) (js : List Nat) :
    ∀ (r : SparseMatrix), (mulInnerGo a b i js r).rows = r.rows := by
  induction js with
  | nil => intro r; rfl
  | cons j js ih =>
    intro r
    rw [mulInnerGo, ih]
    split
    · rw [set_element_rows]
    · rfl

theorem mulInnerGo_cols (a b : SparseMatrix) (i : Nat) (js : List Nat) :
    ∀ (r : SparseMatrix), (mulInnerGo a b i js r).cols = r.cols := by
  induction js with
  | nil => intro r; rfl
  | cons j js ih =>
    intro r
    rw [mulInnerGo, ih]
    split
    · rw [set_element_cols]
    · rfl

theorem mulInnerGo_nodup (a b : SparseMatrix) (i : Nat) (js : List Nat) :
    ∀ (r : SparseMatrix), NodupKeys r.matrix → NodupKeys (mulInnerGo a b i js r).matrix := by
  induction js with
  | nil => intro r h; exact h
  | cons j js ih =>
    intro r h
    rw [mulInnerGo]
    apply ih
    split
    · exact nodup_set _ _ _ _ h
    · exact h

theorem mulInnerGo_noZeros (a b : SparseMatrix) (i : Nat) (js : List Nat) :
    ∀ (r : SparseMatrix), NoZeros r.matrix → NoZeros (mulInnerGo a b i js r).matrix := by
  induction js with
  | nil => intro r h; exact h
  | cons j js ih =>
    intro r h
    rw [mulInnerGo]
    apply ih
    split
    · exact noZeros_set _ _ _ _ h
    · exact h

theorem mulInnerGo_keys (a b : SparseMatrix) (i : Nat) (js : List Nat) :
    ∀ (r : SparseMatrix) (k : Coord), k ∈ (mulInnerGo a b i js r).matrix.map Prod.fst →
    k ∈ r.matrix.map Prod.fst ∨
      ∃ j ∈ js, k = ((i : Int), (j : Int)) ∧ dotProd a b (i : Int) (j : Int) ≠ 0 := by
  induction js with
  | nil => intro r k h; exact Or.inl h
  | cons j js ih =>
    intro r k h
    rw [mulInnerGo] at h
    rcases ih _ _ h with h2 | ⟨j2, hj2, h3⟩
    · by_cases hz : dotProd a b (i : Int) (j : Int) ≠ 0
      · rw [if_pos hz] at h2
        rcases mem_keys_set _ _ _ _ _ h2 with h3 | h3
        · exact Or.inr ⟨j, List.mem_cons_self _ _, h3, hz⟩
        · exact Or.inl h3
      · rw [if_neg hz] at h2
        exact Or.inl h2
    · exact Or.inr ⟨j2, List.mem_cons_of_mem _ hj2, h3⟩

theorem mulInnerGo_get_untouched (a b : SparseMatrix) (i : Nat) (js : List Nat) :
    ∀ (r : SparseMatrix) (x y : Int), (∀ j ∈ js, ¬ (x = (i : Int) ∧ y = (j : Int))) →
    (mulInnerGo a b i js r).get_element x y = r.get_element x y := by
  induction js with
  | nil => intro r x y _; rfl
  | cons j js ih =>
    intro r x y hxy
    rw [mulInnerGo, ih _ _ _ (fun j2 hj2 => hxy j2 (List.mem_cons_of_mem _ hj2))]
    split
    · rw [get_set_ne]
      intro hc
      rw [Prod.mk.injEq] at hc
      exact hxy j (List.mem_cons_self _ _) hc
    · rfl

theorem mulInnerGo_get_written (a b : SparseMatrix) (i : Nat) (js : List Nat) :
    ∀ (r : SparseMatrix), js.Nodup → NodupKeys r.matrix → ∀ j ∈ js,
    (mulInnerGo a b i js r).get_element (i : Int) (j : Int) =
      if dotProd a b (i : Int) (j : Int) = 0 then r.get_element (i : Int) (j : Int)
      else dotProd a b (i : Int) (j : Int) := by
  induction js with
  | nil => intro r _ _ j hj; cases hj
  | cons j0 js ih =>
    intro r hnd hr j hj
    rw [List.nodup_cons] at hnd
    rw [mulInnerGo]
    rcases List.mem_cons.mp hj with hj1 | hj1
    · subst hj1
      have hout : ∀ j2 ∈ js, ¬ ((j : Int) = (i : Int) ∧ (j : Int) = (j2 : Int)) ∨ True :=
        fun _ _ => Or.inr trivial
      rw [mulInnerGo_get_untouched a b i js _ (i : Int) (j : Int) ?_]
      · by_cases hz : dotProd a b (i : Int) (j : Int) = 0
        · rw [if_pos hz]
          have : ¬ dotProd a b (i : Int) (j : Int) ≠ 0 := by
            intro hc
            exact hc hz
          rw [if_neg this]
        · rw [if_neg hz]
          rw [if_pos (by exact hz)]
          exact get_set_self _ _ _ _ hr
      · intro j2 hj2 hc
        have : j = j2 := by
          have := hc.2
          omega
        exact hnd.1 (this ▸ hj2)
    · have hne : j0 ≠ j := fun hc => hnd.1 (hc ▸ hj1)
      rw [ih _ hnd.2 ?_ j hj1]
      · split
        · split
          · rw [get_set_ne]
            intro hc
            rw [Prod.mk.injEq] at hc
            have : j = j0 := by
              have := hc.2
              omega
            exact hne this.symm
          · rfl
        · rfl
      · split
        · exact nodup_set _ _ _ _ hr
        · exact hr

theorem mulOuterGo_rows (a b : SparseMatrix) (is2 : List Nat) :
    ∀ (r : SparseMatrix), (mulOuterGo a b is2 r).rows = r.rows := by
  induction is2 with
  | nil => intro r; rfl
  | cons i is2 ih =>
    intro r
    rw [mulOuterGo, ih, mulInner, mulInnerGo_rows]

theorem mulOuterGo_cols (a b : SparseMatrix) (is2 : List Nat) :
    ∀ (r : SparseMatrix), (mulOuterGo a b is2 r).cols = r.cols := by
  induction is2 with
  | nil => intro r; rfl
  | cons i is2 ih =>
    intro r
    rw [mulOuterGo, ih, mulInner, mulInnerGo_cols]

theorem mulOuterGo_nodup (a b : SparseMatrix) (is2 : List Nat) :
    ∀ (r : SparseMatrix), NodupKeys r.matrix → NodupKeys (mulOuterGo a b is2 r).matrix := by
  induction is2 with
  | nil => intro r h; exact h
  | cons i is2 ih =>
    intro r h
    rw [mulOuterGo]
    exact ih _ (mulInnerGo_nodup a b i _ _ h)

theorem mulOuterGo_noZeros (a b : SparseMatrix) (is2 : List Nat) :
    ∀ (r : SparseMatrix), NoZeros r.matrix → NoZeros (mulOuterGo a b is2 r).matrix := by
  induction is2 with
  | nil => intro r h; exact h
  | cons i is2 ih =>
    intro r h
    rw [mulOuterGo]
    exact ih _ (mulInnerGo_noZeros a b i _ _ h)

theorem mulOuterGo_keys (a b : SparseMatrix) (is2 : List Nat) :
    ∀ (r : SparseMatrix) (k : Coord), k ∈ (mulOuterGo a b is2 r).matrix.map Prod.fst →
    k ∈ r.matrix.map Prod.fst ∨
      ∃ i ∈ is2, ∃ j ∈ List.range b.cols.toNat,
        k = ((i : Int), (j : Int)) ∧ dotProd a b (i : Int) (j : Int) ≠ 0 := by
  induction is2 with
  | nil => intro r k h; exact Or.inl h
  | cons i is2 ih =>
    intro r k h
    rw [mulOuterGo] at h
    rcases ih _ _ h with h2 | ⟨i2, hi2, h3⟩
    · rcases mulInnerGo_keys a b i _ _ _ h2 with h3 | ⟨j, hj, h4⟩
      · exact Or.inl h3
      · exact Or.inr ⟨i, List.mem_cons_self _ _, j, hj, h4⟩
    · exact Or.inr ⟨i2, List.mem_cons_of_mem _ hi2, h3⟩

theorem mulOuterGo_get_untouched (a b : SparseMatrix) (is2 : List Nat) :
    ∀ (r : SparseMatrix) (x y : Int), (∀ i ∈ is2, x ≠ (i : Int)) →
    (mulOuterGo a b is2 r).get_element x y = r.get_element x y := by
  induction is2 with
  | nil => intro r x y _; rfl
  | cons i is2 ih =>
    intro r x y hx
    rw [mulOuterGo, ih _ _ _ (fun i2 hi2 => hx i2 (List.mem_cons_of_mem _ hi2))]
    rw [mulInner, mulInnerGo_get_untouched]
    intro j _ hc
    exact hx i (List.mem_cons_self _ _) hc.1

theorem mulOuterGo_get_written (a b : SparseMatrix) (is2 : List Nat) :
    ∀ (r : SparseMatrix), is2.Nodup → NodupKeys r.matrix → ∀ i ∈ is2,
    ∀ j ∈ List.range b.cols.toNat,
    (mulOuterGo a b is2 r).get_element (i : Int) (j : Int) =
      if dotProd a b (i : Int) (j : Int) = 0 then r.get_element (i : Int) (j : Int)
      else dotProd a b (i : Int) (j : Int) := by
  induction is2 with
  | nil => intro r _ _ i hi; cases hi
  | cons i0 is2 ih =>
    intro r hnd hr i hi j hj
    rw [List.nodup_cons] at hnd
    rw [mulOuterGo]
    rcases List.mem_cons.mp hi with hi1 | hi1
    · subst hi1
      rw [mulOuterGo_get_untouched a b is2 _ (i : Int) (j : Int) ?_]
      · rw [mulInner, mulInnerGo_get_written a b i _ _ (List.nodup_range _) hr j hj]
      · intro i2 hi2 hc
        have : i = i2 := by omega
        exact hnd.1 (this ▸ hi2)
    · have hnd2 : NodupKeys (mulInner a b i0 r).matrix := by
        rw [mulInner]
        exact mulInnerGo_nodup a b i0 _ _ hr
      rw [ih (mulInner a b i0 r) hnd.2 hnd2 i hi1 j hj]
      have hne : (i : Int) ≠ (i0 : Int) := by
        have : i0 ≠ i := fun hc => hnd.1 (hc ▸ hi1)
        omega
      have hgu : (mulInner a b i0 r).get_element (i : Int) (j : Int)
          = r.get_element (i : Int) (j : Int) := by
        rw [mulInner]
        apply mulInnerGo_get_untouched
        intro j2 _ hc
        exact hne hc.1
      rw [hgu]

/-- C2: for operands with left cols equal to right rows, multiply
returns a matrix with the left rows and the right cols whose value at
every in-range coordinate is the dot product over the k range of the
left cols, and only in-range coordinates with a non-zero dot product
are stored. -/
theorem c2_multiply_dot_product (A B : SparseMatrix) (h : A.cols = B.rows) :
    ∃ C : SparseMatrix, A.multiply B = .ok C ∧ C.rows = A.rows ∧ C.cols = B.cols ∧
      (∀ i j : Int, 0 ≤ i → i < A.rows → 0 ≤ j → j < B.cols →
        C.get_element i j = dotProd A B i j) ∧
      (∀ k ∈ C.matrix.map Prod.fst,
        (0 ≤ k.1 ∧ k.1 < A.rows ∧ 0 ≤ k.2 ∧ k.2 < B.cols) ∧
          dotProd A B k.1 k.2 ≠ 0) := by
  have hguard : ¬ (A.cols ≠ B.rows) := by simpa using h
  refine ⟨mulOuterGo A B (List.range A.rows.toNat) ⟨A.rows, B.cols, []⟩,
    ?_, ?_, ?_, ?_, ?_⟩
  · unfold SparseMatrix.multiply
    rw [if_neg hguard]
  · rw [mulOuterGo_rows]
  · rw [mulOuterGo_cols]
  · intro i j h0i hir h0j hjc
    have hiN : i.toNat ∈ List.range A.rows.toNat := by
      rw [List.mem_range]
      omega
    have hjN : j.toNat ∈ List.range B.cols.toNat := by
      rw [List.mem_range]
      omega
    have hi2 : ((i.toNat : Nat) : Int) = i := Int.toNat_of_nonneg h0i
    have hj2 : ((j.toNat : Nat) : Int) = j := Int.toNat_of_nonneg h0j
    have hw := mulOuterGo_get_written A B (List.range A.rows.toNat) ⟨A.rows, B.cols, []⟩
      (List.nodup_range _) (by simp [NodupKeys]) i.toNat hiN j.toNat hjN
    rw [hi2, hj2] at hw
    rw [hw]
    split
    · rename_i hz
      rw [hz]
      rfl
    · rfl
  · intro k hk
    rcases mulOuterGo_keys A B _ _ _ hk with h2 | ⟨i, hi, j, hj, h3, h4⟩
    · cases h2
    · rw [List.mem_range] at hi hj
      have h31 : k.1 = (i : Int) := by rw [h3]
      have h32 : k.2 = (j : Int) := by rw [h3]
      constructor
      · rw [h31, h32]
        show 0 ≤ (i : Int) ∧ (i : Int) < A.rows ∧ 0 ≤ (j : Int) ∧ (j : Int) < B.cols
        omega
      · rw [h31, h32]
        exact h4

theorem c2_multiply_dot_product_witness :
    ∃ C : SparseMatrix,
      (⟨2, 2, [((0, 0), 1), ((0, 1), 2)]⟩ : SparseMatrix).multiply
        ⟨2, 1, [((0, 0), 3), ((1, 0), 4)]⟩ = .ok C ∧
      C.rows = (⟨2, 2, [((0, 0), 1), ((0, 1), 2)]⟩ : SparseMatrix).rows ∧
      C.cols = (⟨2, 1, [((0, 0), 3), ((1, 0), 4)]⟩ : SparseMatrix).cols ∧
      (∀ i j : Int, 0 ≤ i → i < (⟨2, 2, [((0, 0), 1), ((0, 1), 2)]⟩ : SparseMatrix).rows →
        0 ≤ j → j < (⟨2, 1, [((0, 0), 3), ((1, 0), 4)]⟩ : SparseMatrix).cols →
        C.get_element i j = dotProd ⟨2, 2, [((0, 0), 1), ((0, 1), 2)]⟩
          ⟨2, 1, [((0, 0), 3), ((1, 0), 4)]⟩ i j) ∧
      (∀ k ∈ C.matrix.map Prod.fst,
        (0 ≤ k.1 ∧ k.1 < (⟨2, 2, [((0, 0), 1), ((0, 1), 2)]⟩ : SparseMatrix).rows ∧
          0 ≤ k.2 ∧ k.2 < (⟨2, 1, [((0, 0), 3), ((1, 0), 4)]⟩ : SparseMatrix).cols) ∧
          dotProd ⟨2, 2, [((0, 0), 1), ((0, 1), 2)]⟩
            ⟨2, 1, [((0, 0), 3), ((1, 0), 4)]⟩ k.1 k.2 ≠ 0) :=
  c2_multiply_dot_product _ _ rfl

theorem addsub_result_inBounds (f : Int → Int → Int) (A B C : SparseMatrix)
    (hA : InBounds A) (hB : InBounds B) (hr : A.rows = B.rows) (hc : A.cols = B.cols)
    (hC : C = accumFold f B.matrix (seedFold A.matrix ⟨A.rows, A.cols, []⟩)) :
    InBounds C := by
  subst hC
  intro e he
  rw [accumFold_rows, seedFold_rows, accumFold_cols, seedFold_cols]
  have hkey : e.1 ∈ (accumFold f B.matrix
      (seedFold A.matrix ⟨A.rows, A.cols, []⟩)).matrix.map Prod.fst :=
    List.mem_map.mpr ⟨e, he, rfl⟩
  rcases accumFold_keys f _ _ _ hkey with h2 | h2
  · rcases seedFold_keys _ _ _ h2 with h3 | h3
    · cases h3
    · obtain ⟨eA, heA, heq⟩ := List.mem_map.mp h3
      rw [← heq]
      exact hA eA heA
  · obtain ⟨eB, heB, heq⟩ := List.mem_map.mp h2
    rw [← heq]
    have hb := hB eB heB
    show 0 ≤ eB.1.1 ∧ eB.1.1 < A.rows ∧ 0 ≤ eB.1.2 ∧ eB.1.2 < A.cols
    rw [hr, hc]
    exact hb

/-- C5 amended: set_element preserves the bounds invariant when its
coordinate is inside the declared dimensions; construction from
explicit dimensions satisfies it; add and subtract preserve it from
invariant-satisfying operands; multiply establishes it outright; and
construction from file satisfies it whenever every entry line of the
text parses to an in-bounds triple.  Unrestricted set_element calls and
file entries are not bounds-checked by the code. -/
theorem c5_bounds_amended :
    (∀ (m : SparseMatrix) (r c v : Int), InBounds m →
      0 ≤ r → r < m.rows → 0 ≤ c → c < m.cols → InBounds (m.set_element r c v)) ∧
    (∀ (r c : Int) (m : SparseMatrix), initNoFile (some r) (some c) = .ok m → InBounds m) ∧
    (∀ (A B C : SparseMatrix), InBounds A → InBounds B →
      A.add B = .ok C ∨ A.subtract B = .ok C → InBounds C) ∧
    (∀ (A B C : SparseMatrix), A.multiply B = .ok C → InBounds C) ∧
    (∀ (text : List Char) (r c : Int) (E : Entries),
      read_matrix_from_file text = .ok (r, c, E) →
      (∀ l ∈ (splitNL text).drop 2, ∀ e : Coord × Int,
        parseEntryLine (pyStrip l) = some e →
        0 ≤ e.1.1 ∧ e.1.1 < r ∧ 0 ≤ e.1.2 ∧ e.1.2 < c) →
      InBounds ⟨r, c, E⟩) := by
  refine ⟨?_, ?_, ?_, ?_, ?_⟩
  · intro m r c v hm h0r hrr h0c hcc e he
    rw [set_element_rows, set_element_cols]
    rcases mem_of_mem_set _ _ _ _ _ he with h1 | h1
    · subst h1
      exact ⟨h0r, hrr, h0c, hcc⟩
    · exact hm e h1
  · intro r c m h
    injection h with h2
    subst h2
    intro e he
    cases he
  · intro A B C hA hB hor
    rcases hor with h | h
    · unfold SparseMatrix.add at h
      by_cases hg : A.rows ≠ B.rows ∨ A.cols ≠ B.cols
      · rw [if_pos hg] at h
        cases h
      · rw [if_neg hg] at h
        push_neg at hg
        injection h with h2
        exact addsub_result_inBounds _ A B C hA hB hg.1 hg.2 h2.symm
    · unfold SparseMatrix.subtract at h
      by_cases hg : A.rows ≠ B.rows ∨ A.cols ≠ B.cols
      · rw [if_pos hg] at h
        cases h
      · rw [if_neg hg] at h
        push_neg at hg
        injection h with h2
        exact addsub_result_inBounds _ A B C hA hB hg.1 hg.2 h2.symm
  · intro A B C h
    unfold SparseMatrix.multiply at h
    by_cases hg : A.cols ≠ B.rows
    · rw [if_pos hg] at h
      cases h
    · rw [if_neg hg] at h
      injection h with h2
      subst h2
      intro e he
      rw [mulOuterGo_rows, mulOuterGo_cols]
      have hkey : e.1 ∈ (mulOuterGo A B (List.range A.rows.toNat)
          ⟨A.rows, B.cols, []⟩).matrix.map Prod.fst :=
        List.mem_map.mpr ⟨e, he, rfl⟩
      rcases mulOuterGo_keys A B _ _ _ hkey with h3 | ⟨i, hi, j, hj, h4, h5⟩
      · cases h3
      · rw [List.mem_range] at hi hj
        have h41 : e.1.1 = (i : Int) := by rw [h4]
        have h42 : e.1.2 = (j : Int) := by rw [h4]
        rw [h41, h42]
        show 0 ≤ (i : Int) ∧ (i : Int) < A.rows ∧ 0 ≤ (j : Int) ∧ (j : Int) < B.cols
        omega
  · intro text r c E hok hbnd
    obtain ⟨h0, h1, h2⟩ := read_ok_inv text r c E hok
    intro e he
    rcases parseEntries_entry_source _ _ _ h2 e he with h3 | ⟨l, hl, hs, hp⟩
    · cases h3
    · exact hbnd l hl e hp

theorem c5_bounds_amended_witness :
    InBounds ((⟨2, 2, []⟩ : SparseMatrix).set_element 1 1 7) :=
  c5_bounds_amended.1 ⟨2, 2, []⟩ 1 1 7 (by decide) (by decide) (by decide)
    (by decide) (by decide)

/-! ## Character and digit lemmas -/

theorem digitChar_isDigit (n : Nat) (h : n < 10) : isDigitChar (digitChar n) = true := by
  interval_cases n <;> decide

theorem digitVal_digitChar (n : Nat) (h : n < 10) : digitVal (digitChar n) = n := by
  interval_cases n <;> decide

theorem digit_char_props (c : Char) (h : isDigitChar c = true) :
    isPySpace c = false ∧ isParenChar c = false ∧ c ≠ '\n' ∧ c ≠ '=' ∧ c ≠ ',' ∧
      c ≠ '+' ∧ c ≠ '-' ∧ c ≠ '_' := by
  have hb : 48 ≤ c.toNat ∧ c.toNat ≤ 57 := by
    unfold isDigitChar at h
    simp only [Bool.and_eq_true, decide_eq_true_eq] at h
    exact h
  have hne : ∀ d : Char, (d.toNat < 48 ∨ 57 < d.toNat) → c ≠ d := by
    intro d hd hc
    subst hc
    omega
  refine ⟨?_, ?_, hne '\n' (by decide), hne '=' (by decide), hne ',' (by decide),
    hne '+' (by decide), hne '-' (by decide), hne '_' (by decide)⟩
  · unfold isPySpace
    simp only [Bool.or_eq_false_iff, beq_eq_false_iff_ne]
    exact ⟨⟨⟨⟨⟨hne ' ' (by decide), hne '\t' (by decide)⟩, hne '\n' (by decide)⟩,
      hne '\r' (by decide)⟩, hne '\x0b' (by decide)⟩, hne '\x0c' (by decide)⟩
  · unfold isParenChar
    simp only [Bool.or_eq_false_iff, beq_eq_false_iff_ne]
    exact ⟨hne '(' (by decide), hne ')' (by decide)⟩

theorem mem_of_head? (l : List Char) (c : Char) (h : l.head? = some c) : c ∈ l := by
  cases l with
  | nil => cases h
  | cons a t =>
    injection h with h2
    rw [← h2]
    exact List.mem_cons_self _ _

theorem mem_of_getLast? (l : List Char) (c : Char) (h : l.getLast? = some c) : c ∈ l := by
  induction l with
  | nil => cases h
  | cons a t ih =>
    cases t with
    | nil =>
      injection h with h2
      rw [← h2]
      exact List.mem_cons_self _ _
    | cons b t2 =>
      rw [List.getLast?_cons_cons] at h
      exact List.mem_cons_of_mem _ (ih h)

theorem getLast?_cons_of_ne_nil (a : Char) (l : List Char) (h : l ≠ []) :
    (a :: l).getLast? = l.getLast? := by
  cases l with
  | nil => exact absurd rfl h
  | cons b t => rw [List.getLast?_cons_cons]

/-! ## Rendering lemmas for natToChars and intToChars -/

theorem natToCharsAux_digits : ∀ (fuel n : Nat), n < fuel → allDigits (natToCharsAux fuel n) := by
  intro fuel
  induction fuel with
  | zero => intro n h; omega
  | succ f ih =>
    intro n h
    by_cases h10 : n < 10
    · rw [natToCharsAux, if_pos h10]
      intro c hc
      rw [List.mem_singleton] at hc
      subst hc
      exact digitChar_isDigit n h10
    · rw [natToCharsAux, if_neg h10]
      intro c hc
      rw [List.mem_append] at hc
      rcases hc with hc | hc
      · exact ih (n / 10) (by omega) c hc
      · rw [List.mem_singleton] at hc
        subst hc
        exact digitChar_isDigit _ (Nat.mod_lt _ (by omega))

theorem natToCharsAux_ne_nil : ∀ (fuel n : Nat), n < fuel → natToCharsAux fuel n ≠ [] := by
  intro fuel
  cases fuel with
  | zero => intro n h; omega
  | succ f =>
    intro n h
    by_cases h10 : n < 10
    · rw [natToCharsAux, if_pos h10]
      exact List.cons_ne_nil _ _
    · rw [natToCharsAux, if_neg h10]
      intro hc
      rw [List.append_eq_nil] at hc
      exact List.cons_ne_nil _ _ hc.2

theorem natToChars_digits (n : Nat) : allDigits (natToChars n) :=
  natToCharsAux_digits _ _ (Nat.lt_succ_self n)

theorem natToChars_ne_nil (n : Nat) : natToChars n ≠ [] :=
  natToCharsAux_ne_nil _ _ (Nat.lt_succ_self n)

theorem digitsToNat_natToCharsAux : ∀ (fuel n acc : Nat), n < fuel →
    digitsToNat acc (natToCharsAux fuel n)
      = acc * 10 ^ (natToCharsAux fuel n).length + n := by
  intro fuel
  induction fuel with
  | zero => intro n acc h; omega
  | succ f ih =>
    intro n acc h
    by_cases h10 : n < 10
    · rw [natToCharsAux, if_pos h10]
      rw [show digitsToNat acc [digitChar n] = 10 * acc + digitVal (digitChar n) from rfl]
      rw [digitVal_digitChar n h10, List.length_singleton, pow_one]
      ring
    · rw [natToCharsAux, if_neg h10]
      rw [digitsToNat, List.foldl_append]
      show 10 * (digitsToNat acc (natToCharsAux f (n / 10))) + digitVal (digitChar (n % 10))
        = acc * 10 ^ (natToCharsAux f (n / 10) ++ [digitChar (n % 10)]).length + n
      rw [ih (n / 10) acc (by omega), digitVal_digitChar _ (Nat.mod_lt _ (by omega)),
        List.length_append, List.length_singleton, pow_succ]
      have hdm : 10 * (n / 10) + n % 10 = n := by omega
      calc 10 * (acc * 10 ^ (natToCharsAux f (n / 10)).length + n / 10) + n % 10
          = acc * (10 ^ (natToCharsAux f (n / 10)).length * 10) + (10 * (n / 10) + n % 10) := by
            ring
        _ = acc * (10 ^ (natToCharsAux f (n / 10)).length * 10) + n := by rw [hdm]

theorem digitsToNat_natToChars (n : Nat) : digitsToNat 0 (natToChars n) = n := by
  rw [natToChars, digitsToNat_natToCharsAux (n + 1) n 0 (Nat.lt_succ_self n)]
  simp

theorem pyDigitsAux_digits (l : List Char) : ∀ (acc : Nat), allDigits l →
    pyDigitsAux acc l = some (digitsToNat acc l) := by
  induction l with
  | nil => intro acc _; rfl
  | cons c t ih =>
    intro acc hall
    have hc : isDigitChar c = true := hall c (List.mem_cons_self _ _)
    cases t with
    | nil =>
      rw [pyDigitsAux.eq_3, if_pos hc]
      rfl
    | cons d t2 =>
      rw [pyDigitsAux.eq_2, if_pos hc]
      exact ih _ (fun x hx => hall x (List.mem_cons_of_mem _ hx))

theorem pyUInt_digits (l : List Char) (hne : l ≠ []) (hall : allDigits l) :
    pyUInt l = some (digitsToNat 0 l) := by
  cases l with
  | nil => exact absurd rfl hne
  | cons c t =>
    have hc : isDigitChar c = true := hall c (List.mem_cons_self _ _)
    rw [pyUInt, if_pos hc]
    exact pyDigitsAux_digits _ _ hall

theorem pyUInt_natToChars (n : Nat) : pyUInt (natToChars n) = some n := by
  rw [pyUInt_digits _ (natToChars_ne_nil n) (natToChars_digits n), digitsToNat_natToChars]

/-! ## Strip and split lemmas -/

theorem dropWhile_eq_self (p : Char → Bool) (l : List Char)
    (h : ∀ c, l.head? = some c → p c = false) : l.dropWhile p = l := by
  cases l with
  | nil => rfl
  | cons a t =>
    rw [List.dropWhile_cons, h a rfl, if_neg Bool.false_ne_true]

theorem pyStrip_eq_self (l : List Char)
    (h1 : ∀ c, l.head? = some c → isPySpace c = false)
    (h2 : ∀ c, l.getLast? = some c → isPySpace c = false) : pyStrip l = l := by
  unfold pyStrip
  rw [dropWhile_eq_self _ _ h1]
  rw [dropWhile_eq_self _ _ (fun c hc => h2 c (by rwa [List.head?_reverse] at hc))]
  exact List.reverse_reverse l

theorem stripParens_wrap (l : List Char)
    (h1 : ∀ c, l.head? = some c → isParenChar c = false)
    (h2 : ∀ c, l.getLast? = some c → isParenChar c = false) :
    stripParens ('(' :: (l ++ [')'])) = l := by
  cases l with
  | nil => decide
  | cons a t =>
    have ha : isParenChar a = false := h1 a rfl
    unfold stripParens
    rw [List.dropWhile_cons]
    rw [if_pos (by decide : isParenChar '(' = true)]
    rw [show (a :: t) ++ [')'] = a :: (t ++ [')']) from rfl]
    rw [List.dropWhile_cons, ha, if_neg Bool.false_ne_true]
    rw [show a :: (t ++ [')']) = (a :: t) ++ [')'] from rfl]
    rw [List.reverse_append]
    rw [show ([')'] : List Char).reverse = [')'] from rfl]
    rw [List.singleton_append]
    rw [List.dropWhile_cons, if_pos (by decide : isParenChar ')' = true)]
    rw [dropWhile_eq_self isParenChar ((a :: t).reverse)
      (fun c hc => h2 c (by rwa [List.head?_reverse] at hc))]
    exact List.reverse_reverse _

theorem splitNL_append (l r : List Char) (h : ∀ c ∈ l, c ≠ '\n') :
    splitNL (l ++ '\n' :: r) = l :: splitNL r := by
  induction l with
  | nil =>
    rw [List.nil_append, splitNL, if_pos rfl]
  | cons c t ih =>
    have hc : ¬ (c = '\n') := h c (List.mem_cons_self _ _)
    rw [List.cons_append, splitNL, if_neg hc,
      ih (fun d hd => h d (List.mem_cons_of_mem _ hd))]

theorem splitEq_no_sep (l : List Char) (h : ∀ c ∈ l, c ≠ '=') : splitEq l = [l] := by
  induction l with
  | nil => rfl
  | cons c t ih =>
    have hc : ¬ (c = '=') := h c (List.mem_cons_self _ _)
    rw [splitEq, if_neg hc, ih (fun d hd => h d (List.mem_cons_of_mem _ hd))]

theorem splitEq_append (l r : List Char) (h : ∀ c ∈ l, c ≠ '=') :
    splitEq (l ++ '=' :: r) = l :: splitEq r := by
  induction l with
  | nil =>
    rw [List.nil_append, splitEq, if_pos rfl]
  | cons c t ih =>
    have hc : ¬ (c = '=') := h c (List.mem_cons_self _ _)
    rw [List.cons_append, splitEq, if_neg hc,
      ih (fun d hd => h d (List.mem_cons_of_mem _ hd))]

theorem splitCS_no_sep (l : List Char) (h : ∀ c ∈ l, c ≠ ',') : splitCS l = [l] := by
  induction l with
  | nil => rfl
  | cons c t ih =>
    cases t with
    | nil => rfl
    | cons d t2 =>
      have hc : ¬ (c = ',' ∧ d = ' ') := fun hcd => (h c (List.mem_cons_self _ _)) hcd.1
      rw [splitCS, if_neg hc, ih (fun e he => h e (List.mem_cons_of_mem _ he))]

theorem splitCS_append (l r : List Char) (h : ∀ c ∈ l, c ≠ ',') :
    splitCS (l ++ ',' :: ' ' :: r) = l :: splitCS r := by
  induction l with
  | nil =>
    rw [List.nil_append, splitCS, if_pos ⟨rfl, rfl⟩]
  | cons c t ih =>
    cases t with
    | nil =>
      rw [show ([c] ++ ',' :: ' ' :: r) = c :: ',' :: ' ' :: r from rfl]
      rw [splitCS, if_neg (fun hcd => absurd hcd.2 (by decide))]
      rw [show splitCS (',' :: ' ' :: r) = [] :: splitCS r from by
        rw [splitCS, if_pos ⟨rfl, rfl⟩]]
    | cons d t2 =>
      have hc : ¬ (c = ',' ∧ d = ' ') := fun hcd => (h c (List.mem_cons_self _ _)) hcd.1
      rw [show ((c :: d :: t2) ++ ',' :: ' ' :: r) = c :: d :: (t2 ++ ',' :: ' ' :: r)
        from rfl]
      rw [splitCS, if_neg hc]
      rw [show (d :: (t2 ++ ',' :: ' ' :: r) : List Char) = ((d :: t2) ++ ',' :: ' ' :: r)
        from rfl]
      rw [ih (fun e he => h e (List.mem_cons_of_mem _ he))]

/-! ## Properties of rendered integers -/

theorem intToChars_chars (i : Int) : ∀ c ∈ intToChars i, isDigitChar c = true ∨ c = '-' := by
  unfold intToChars
  split
  · intro c hc
    rcases List.mem_cons.mp hc with h | h
    · exact Or.inr h
    · exact Or.inl (natToChars_digits _ c h)
  · intro c hc
    exact Or.inl (natToChars_digits _ c hc)

theorem intToChars_ne_nil (i : Int) : intToChars i ≠ [] := by
  unfold intToChars
  split
  · exact List.cons_ne_nil _ _
  · exact natToChars_ne_nil _

theorem intToChars_not_space (i : Int) : ∀ c ∈ intToChars i, isPySpace c = false := by
  intro c hc
  rcases intToChars_chars i c hc with h | h
  · exact (digit_char_props c h).1
  · rw [h]
    decide

theorem intToChars_not_paren (i : Int) : ∀ c ∈ intToChars i, isParenChar c = false := by
  intro c hc
  rcases intToChars_chars i c hc with h | h
  · exact (digit_char_props c h).2.1
  · rw [h]
    decide

theorem intToChars_no_nl (i : Int) : ∀ c ∈ intToChars i, c ≠ '\n' := by
  intro c hc
  rcases intToChars_chars i c hc with h | h
  · exact (digit_char_props c h).2.2.1
  · rw [h]
    decide

theorem intToChars_no_eq (i : Int) : ∀ c ∈ intToChars i, c ≠ '=' := by
  intro c hc
  rcases intToChars_chars i c hc with h | h
  · exact (digit_char_props c h).2.2.2.1
  · rw [h]
    decide

theorem intToChars_no_comma (i : Int) : ∀ c ∈ intToChars i, c ≠ ',' := by
  intro c hc
  rcases intToChars_chars i c hc with h | h
  · exact (digit_char_props c h).2.2.2.2.1
  · rw [h]
    decide

theorem intToChars_getLast_digit (i : Int) :
    ∀ c, (intToChars i).getLast? = some c → isDigitChar c = true := by
  unfold intToChars
  split
  · intro c hc
    rw [getLast?_cons_of_ne_nil _ _ (natToChars_ne_nil _)] at hc
    exact natToChars_digits _ c (mem_of_getLast? _ _ hc)
  · intro c hc
    exact natToChars_digits _ c (mem_of_getLast? _ _ hc)

theorem pyInt_intToChars (i : Int) : pyInt (intToChars i) = some i := by
  have hstrip : pyStrip (intToChars i) = intToChars i := by
    apply pyStrip_eq_self
    · intro c hc
      exact intToChars_not_space i c (mem_of_head? _ _ hc)
    · intro c hc
      exact intToChars_not_space i c (mem_of_getLast? _ _ hc)
  unfold pyInt
  rw [hstrip]
  by_cases hneg : i < 0
  · have hthis : intToChars i = '-' :: natToChars i.natAbs := by
      unfold intToChars
      rw [if_pos hneg]
    rw [hthis, pyIntCore]
    rw [show (('-' : Char) == '+') = false from by decide, if_neg Bool.false_ne_true]
    rw [show (('-' : Char) == '-') = true from by decide, if_pos rfl]
    rw [pyUInt_natToChars]
    show some (-((i.natAbs : Nat) : Int)) = some i
    have hv : -((i.natAbs : Nat) : Int) = i := by omega
    rw [hv]
  · have hthis : intToChars i = natToChars i.toNat := by
      unfold intToChars
      rw [if_neg hneg]
    rw [hthis]
    cases hl : natToChars i.toNat with
    | nil => exact absurd hl (natToChars_ne_nil _)
    | cons c t =>
      have hc : isDigitChar c = true := by
        apply natToChars_digits i.toNat c
        rw [hl]
        exact List.mem_cons_self _ _
      have e1 : (c == '+') = false := by
        rw [beq_eq_false_iff_ne]
        exact (digit_char_props c hc).2.2.2.2.2.1
      have e2 : (c == '-') = false := by
        rw [beq_eq_false_iff_ne]
        exact (digit_char_props c hc).2.2.2.2.2.2.1
      rw [pyIntCore, e1, if_neg Bool.false_ne_true, e2, if_neg Bool.false_ne_true]
      rw [← hl, pyUInt_natToChars]
      show some ((i.toNat : Nat) : Int) = some i
      have hv : ((i.toNat : Nat) : Int) = i := by omega
      rw [hv]

/-! ## Serialization and parsing round-trip lemmas -/

theorem getLast?_append_right (l1 l2 : List Char) (h : l2 ≠ []) :
    (l1 ++ l2).getLast? = l2.getLast? := by
  rw [List.getLast?_append]
  cases hgl : l2.getLast? with
  | none => exact absurd (List.getLast?_eq_none_iff.mp hgl) h
  | some d => rfl

theorem parseHeaderLine_round (key : List Char) (i : Int)
    (h1 : ∀ c ∈ key, c ≠ '=' ∧ isPySpace c = false) (hk : key ≠ []) :
    parseHeaderLine (key ++ '=' :: intToChars i) = some i := by
  have hstrip : pyStrip (key ++ '=' :: intToChars i) = key ++ '=' :: intToChars i := by
    apply pyStrip_eq_self
    · intro c hc
      cases key with
      | nil => exact absurd rfl hk
      | cons a t =>
        rw [List.cons_append] at hc
        injection hc with h2
        rw [← h2]
        exact (h1 a (List.mem_cons_self _ _)).2
    · intro c hc
      rw [getLast?_append_right _ _ (List.cons_ne_nil _ _),
        getLast?_cons_of_ne_nil _ _ (intToChars_ne_nil i)] at hc
      exact (digit_char_props c (intToChars_getLast_digit i c hc)).1
  unfold parseHeaderLine
  rw [hstrip, splitEq_append key _ (fun c hc => (h1 c hc).1),
    splitEq_no_sep (intToChars i) (intToChars_no_eq i)]
  exact pyInt_intToChars i

theorem entryBody_getLast (e : Coord × Int) : (entryBody e).getLast? = some ')' := by
  unfold entryBody
  rw [getLast?_cons_of_ne_nil _ _ (by simp)]
  exact List.getLast?_concat _

theorem pyStrip_entryBody (e : Coord × Int) : pyStrip (entryBody e) = entryBody e := by
  apply pyStrip_eq_self
  · intro c hc
    unfold entryBody at hc
    injection hc with h2
    rw [← h2]
    decide
  · intro c hc
    rw [entryBody_getLast] at hc
    injection hc with h2
    rw [← h2]
    decide

theorem innerChars_head (e : Coord × Int) :
    ∀ c, (innerChars e).head? = some c → isParenChar c = false := by
  intro c hc
  unfold innerChars at hc
  rw [List.head?_append] at hc
  cases hl : (intToChars e.1.1).head? with
  | none =>
    rw [hl] at hc
    exact absurd (List.head?_eq_none_iff.mp hl) (intToChars_ne_nil _)
  | some d =>
    rw [hl] at hc
    injection hc with h2
    rw [← h2]
    exact intToChars_not_paren _ d (mem_of_head? _ _ hl)

theorem innerChars_getLast (e : Coord × Int) :
    ∀ c, (innerChars e).getLast? = some c → isParenChar c = false := by
  intro c hc
  unfold innerChars at hc
  rw [getLast?_append_right _ _ (List.cons_ne_nil _ _),
    getLast?_cons_of_ne_nil _ _ (List.cons_ne_nil _ _),
    getLast?_cons_of_ne_nil _ _ (by simp),
    getLast?_append_right _ _ (List.cons_ne_nil _ _),
    getLast?_cons_of_ne_nil _ _ (List.cons_ne_nil _ _),
    getLast?_cons_of_ne_nil _ _ (intToChars_ne_nil _)] at hc
  exact (digit_char_props c (intToChars_getLast_digit _ c hc)).2.1

theorem stripParens_entryBody (e : Coord × Int) : stripParens (entryBody e) = innerChars e := by
  unfold entryBody
  exact stripParens_wrap _ (innerChars_head e) (innerChars_getLast e)

theorem splitCS_innerChars (e : Coord × Int) :
    splitCS (innerChars e) = [intToChars e.1.1, intToChars e.1.2, intToChars e.2] := by
  unfold innerChars
  rw [splitCS_append _ _ (intToChars_no_comma _),
    splitCS_append _ _ (intToChars_no_comma _),
    splitCS_no_sep _ (intToChars_no_comma _)]

theorem parseEntryLine_entryBody (e : Coord × Int) : parseEntryLine (entryBody e) = some e := by
  unfold parseEntryLine
  rw [stripParens_entryBody, splitCS_innerChars]
  show (do
    let r ← pyInt (intToChars e.1.1)
    let cc ← pyInt (intToChars e.1.2)
    let v ← pyInt (intToChars e.2)
    some ((r, cc), v)) = some e
  rw [pyInt_intToChars, pyInt_intToChars, pyInt_intToChars]
  rfl

theorem entryBody_no_nl (e : Coord × Int) : ∀ c ∈ entryBody e, c ≠ '\n' := by
  unfold entryBody innerChars
  intro c hc
  rcases List.mem_cons.mp hc with h | h
  · rw [h]
    decide
  rcases List.mem_append.mp h with h | h
  swap
  · rw [List.mem_singleton.mp h]
    decide
  rcases List.mem_append.mp h with h | h
  · exact intToChars_no_nl _ c h
  rcases List.mem_cons.mp h with h | h
  · rw [h]
    decide
  rcases List.mem_cons.mp h with h | h
  · rw [h]
    decide
  rcases List.mem_append.mp h with h | h
  · exact intToChars_no_nl _ c h
  rcases List.mem_cons.mp h with h | h
  · rw [h]
    decide
  rcases List.mem_cons.mp h with h | h
  · rw [h]
    decide
  exact intToChars_no_nl _ c h

theorem splitNL_flatten (L : Entries) :
    splitNL ((L.map entryLineChars).flatten) = L.map entryBody ++ [[]] := by
  induction L with
  | nil => rfl
  | cons e t ih =>
    rw [List.map_cons, List.flatten_cons]
    rw [show entryLineChars e = entryBody e ++ ['\n'] from rfl]
    rw [List.append_assoc]
    rw [show (['\n'] ++ (t.map entryLineChars).flatten : List Char)
      = '\n' :: (t.map entryLineChars).flatten from rfl]
    rw [splitNL_append _ _ (entryBody_no_nl e), ih, List.map_cons, List.cons_append]

theorem parseEntries_bodies (L : Entries) : ∀ (acc : Entries),
    parseEntries acc (L.map entryBody ++ [[]])
      = some (L.foldl (fun d e => dictInsert e.1 e.2 d) acc) := by
  induction L with
  | nil => intro acc; rfl
  | cons e t ih =>
    intro acc
    obtain ⟨⟨kr, kc⟩, v⟩ := e
    rw [List.map_cons, List.cons_append, parseEntries]
    rw [if_neg (by rw [pyStrip_entryBody]; simp [entryBody])]
    rw [pyStrip_entryBody, parseEntryLine_entryBody]
    exact ih _

theorem dictInsert_append (d : Entries) (k : Coord) (v : Int)
    (h : k ∉ d.map Prod.fst) : dictInsert k v d = d ++ [(k, v)] := by
  induction d with
  | nil => rfl
  | cons e t ih =>
    rw [List.map_cons, List.mem_cons] at h
    push_neg at h
    rw [dictInsert_cons, if_neg (fun hc => h.1 hc.symm), ih h.2, List.cons_append]

theorem foldl_insert_eq (L : Entries) : ∀ (acc : Entries), NodupKeys (acc ++ L) →
    L.foldl (fun d e => dictInsert e.1 e.2 d) acc = acc ++ L := by
  induction L with
  | nil => intro acc _; rw [List.foldl_nil, List.append_nil]
  | cons e t ih =>
    intro acc h
    rw [List.foldl_cons]
    have hk : e.1 ∉ acc.map Prod.fst := by
      rw [NodupKeys, List.map_append, List.map_cons, List.nodup_append] at h
      intro hc
      exact h.2.2 hc (List.mem_cons_self _ _)
    rw [dictInsert_append _ _ _ hk]
    have hshape : (acc ++ [(e.1, e.2)]) ++ t = acc ++ e :: t := by
      rw [List.append_assoc, List.singleton_append, Prod.mk.eta]
    rw [ih (acc ++ [(e.1, e.2)]) (by rw [hshape]; exact h), hshape]

/-! ## Dictionary lookups under permutation -/

theorem mem_dictGet (d : Entries) (k : Coord) (v : Int) (hnd : NodupKeys d)
    (hm : (k, v) ∈ d) : dictGet d k = some v := by
  induction d with
  | nil => cases hm
  | cons e t ih =>
    rw [NodupKeys, List.map_cons, List.nodup_cons] at hnd
    rcases List.mem_cons.mp hm with h | h
    · subst h
      rw [dictGet_cons, if_pos rfl]
    · have hkmem : k ∈ t.map Prod.fst := List.mem_map.mpr ⟨(k, v), h, rfl⟩
      have hne : ¬ (e.1 = k) := fun hc => hnd.1 (hc ▸ hkmem)
      rw [dictGet_cons, if_neg hne]
      exact ih hnd.2 h

theorem dictGet_perm (d d' : Entries) (hp : d.Perm d') (hnd : NodupKeys d) (k : Coord) :
    dictGet d' k = dictGet d k := by
  have hnd' : NodupKeys d' := by
    rw [NodupKeys] at *
    exact (hp.map Prod.fst).nodup_iff.mp hnd
  cases hg : dictGet d k with
  | some v => exact mem_dictGet d' k v hnd' (hp.mem_iff.mp (dictGet_mem d k v hg))
  | none =>
    rw [dictGet_eq_none_iff] at hg ⊢
    intro hc
    exact hg ((hp.map Prod.fst).mem_iff.mpr hc)

theorem read_eval (text : List Char) (r c : Int) (E : Entries)
    (h0 : parseHeaderLine ((splitNL text).getD 0 []) = some r)
    (h1 : parseHeaderLine ((splitNL text).getD 1 []) = some c)
    (h2 : parseEntries [] ((splitNL text).drop 2) = some E) :
    read_matrix_from_file text = .ok (r, c, E) := by
  simp only [read_matrix_from_file]
  rw [h0, h1, h2]

/-- C4: deserializing the serialized text of a valid sparse matrix
(non-negative dimensions, no stored zeros, unique in-bounds keys)
yields the same rows, the same cols, and a dictionary with exactly the
same key-value mapping, including for the all-zero matrix with empty
entries. -/
theorem c4_roundtrip (M : SparseMatrix) (h0r : 0 ≤ M.rows) (h0c : 0 ≤ M.cols)
    (hnd : NodupKeys M.matrix) (hnz : NoZeros M.matrix) (hb : InBounds M) :
    ∃ E : Entries,
      read_matrix_from_file (write_matrix_to_file M) = .ok (M.rows, M.cols, E) ∧
      E.Perm M.matrix ∧
      (∀ k : Coord, dictGet E k = dictGet M.matrix k) := by
  set L := List.insertionSort pyTupleLe M.matrix with hL
  have hperm : L.Perm M.matrix := List.perm_insertionSort _ _
  have hndL : NodupKeys L := by
    rw [NodupKeys] at hnd ⊢
    exact (hperm.map Prod.fst).nodup_iff.mpr hnd
  have hlines : splitNL (write_matrix_to_file M) =
      ("rows".data ++ '=' :: intToChars M.rows) ::
      ("cols".data ++ '=' :: intToChars M.cols) :: (L.map entryBody ++ [[]]) := by
    rw [show write_matrix_to_file M =
        ("rows".data ++ '=' :: intToChars M.rows) ++ '\n' ::
        (("cols".data ++ '=' :: intToChars M.cols) ++ '\n' ::
          ((L.map entryLineChars).flatten)) from by
      unfold write_matrix_to_file
      rw [← hL]
      simp only [List.append_assoc, List.cons_append, List.singleton_append,
        List.nil_append]]
    rw [splitNL_append _ _ ?hra]
    rw [splitNL_append _ _ ?hcb]
    rw [splitNL_flatten]
    case hra =>
      intro d hd
      rcases List.mem_append.mp hd with h | h
      · intro hc
        subst hc
        revert h
        decide
      · rcases List.mem_cons.mp h with h | h
        · rw [h]
          decide
        · exact intToChars_no_nl _ d h
    case hcb =>
      intro d hd
      rcases List.mem_append.mp hd with h | h
      · intro hc
        subst hc
        revert h
        decide
      · rcases List.mem_cons.mp h with h | h
        · rw [h]
          decide
        · exact intToChars_no_nl _ d h
  have h0 : parseHeaderLine ((splitNL (write_matrix_to_file M)).getD 0 [])
      = some M.rows := by
    rw [hlines]
    show parseHeaderLine ("rows".data ++ '=' :: intToChars M.rows) = some M.rows
    exact parseHeaderLine_round _ _ (by decide) (by decide)
  have h1 : parseHeaderLine ((splitNL (write_matrix_to_file M)).getD 1 [])
      = some M.cols := by
    rw [hlines]
    show parseHeaderLine ("cols".data ++ '=' :: intToChars M.cols) = some M.cols
    exact parseHeaderLine_round _ _ (by decide) (by decide)
  have h2 : parseEntries [] ((splitNL (write_matrix_to_file M)).drop 2) = some L := by
    rw [hlines]
    show parseEntries [] (L.map entryBody ++ [[]]) = some L
    rw [parseEntries_bodies L []]
    rw [foldl_insert_eq L [] (by rw [List.nil_append]; exact hndL), List.nil_append]
  exact ⟨L, read_eval _ _ _ _ h0 h1 h2, hperm,
    fun k => dictGet_perm M.matrix L hperm.symm hnd k⟩

theorem c4_roundtrip_witness :
    ∃ E : Entries,
      read_matrix_from_file (write_matrix_to_file ⟨2, 2, [((1, 1), 2), ((0, 0), 4)]⟩)
        = .ok ((⟨2, 2, [((1, 1), 2), ((0, 0), 4)]⟩ : SparseMatrix).rows,
            (⟨2, 2, [((1, 1), 2), ((0, 0), 4)]⟩ : SparseMatrix).cols, E) ∧
      E.Perm (⟨2, 2, [((1, 1), 2), ((0, 0), 4)]⟩ : SparseMatrix).matrix ∧
      (∀ k : Coord, dictGet E k
        = dictGet (⟨2, 2, [((1, 1), 2), ((0, 0), 4)]⟩ : SparseMatrix).matrix k) :=
  c4_roundtrip _ (by decide) (by decide) (by decide) (by decide) (by decide)

/-- C8: serialization emits the rows header line, then the cols header
line, then one line per stored entry, each in the exact parenthesized
comma-space textual form with a trailing newline, the entries arranged
in strictly ascending (row, col) lexicographic order; and the output
is invariant under permutation of the internal storage order. -/
theorem c8_serialize_format (M : SparseMatrix) (hnd : NodupKeys M.matrix) :
    ∃ L : Entries,
      L.Perm M.matrix ∧
      List.Pairwise (fun e f => e.1.1 < f.1.1 ∨ (e.1.1 = f.1.1 ∧ e.1.2 < f.1.2)) L ∧
      write_matrix_to_file M =
        ("rows".data ++ '=' :: intToChars M.rows) ++ '\n' ::
        (("cols".data ++ '=' :: intToChars M.cols) ++ '\n' ::
          ((L.map entryLineChars).flatten)) ∧
      (∀ M2 : SparseMatrix, M2.rows = M.rows → M2.cols = M.cols →
        M2.matrix.Perm M.matrix → write_matrix_to_file M2 = write_matrix_to_file M) := by
  have hperm : (List.insertionSort pyTupleLe M.matrix).Perm M.matrix :=
    List.perm_insertionSort _ _
  refine ⟨List.insertionSort pyTupleLe M.matrix, hperm, ?_, ?_, ?_⟩
  · have hsorted : List.Sorted pyTupleLe (List.insertionSort pyTupleLe M.matrix) :=
      List.sorted_insertionSort _ _
    have hndL : NodupKeys (List.insertionSort pyTupleLe M.matrix) := by
      rw [NodupKeys] at hnd ⊢
      exact (hperm.map Prod.fst).nodup_iff.mpr hnd
    have hpairne : List.Pairwise (fun e f : Coord × Int => e.1 ≠ f.1)
        (List.insertionSort pyTupleLe M.matrix) := by
      rw [NodupKeys, List.Nodup, List.pairwise_map] at hndL
      exact hndL
    refine (hsorted.and hpairne).imp ?_
    intro e f hef
    obtain ⟨hle, hne⟩ := hef
    unfold pyTupleLe at hle
    have hnp : ¬ (e.1.1 = f.1.1 ∧ e.1.2 = f.1.2) := by
      intro hq
      exact hne (Prod.ext hq.1 hq.2)
    omega
  · unfold write_matrix_to_file
    simp only [List.append_assoc, List.cons_append, List.singleton_append,
      List.nil_append]
  · intro M2 hr hc hp
    unfold write_matrix_to_file
    rw [hr, hc]
    have hsame : List.insertionSort pyTupleLe M2.matrix
        = List.insertionSort pyTupleLe M.matrix :=
      List.eq_of_perm_of_sorted
        ((List.perm_insertionSort _ _).trans (hp.trans hperm.symm))
        (List.sorted_insertionSort _ _) (List.sorted_insertionSort _ _)
    rw [hsame]

theorem c8_serialize_format_witness :
    ∃ L : Entries,
      L.Perm (⟨2, 3, [((1, 1), 2), ((0, 0), 4), ((0, 2), -7)]⟩ : SparseMatrix).matrix ∧
      List.Pairwise (fun e f => e.1.1 < f.1.1 ∨ (e.1.1 = f.1.1 ∧ e.1.2 < f.1.2)) L ∧
      write_matrix_to_file ⟨2, 3, [((1, 1), 2), ((0, 0), 4), ((0, 2), -7)]⟩ =
        ("rows".data ++ '=' ::
          intToChars (⟨2, 3, [((1, 1), 2), ((0, 0), 4), ((0, 2), -7)]⟩ :
            SparseMatrix).rows) ++ '\n' ::
        (("cols".data ++ '=' ::
          intToChars (⟨2, 3, [((1, 1), 2), ((0, 0), 4), ((0, 2), -7)]⟩ :
            SparseMatrix).cols) ++ '\n' ::
          ((L.map entryLineChars).flatten)) ∧
      (∀ M2 : SparseMatrix,
        M2.rows = (⟨2, 3, [((1, 1), 2), ((0, 0), 4), ((0, 2), -7)]⟩ : SparseMatrix).rows →
        M2.cols = (⟨2, 3, [((1, 1), 2), ((0, 0), 4), ((0, 2), -7)]⟩ : SparseMatrix).cols →
        M2.matrix.Perm
          (⟨2, 3, [((1, 1), 2), ((0, 0), 4), ((0, 2), -7)]⟩ : SparseMatrix).matrix →
        write_matrix_to_file M2
          = write_matrix_to_file ⟨2, 3, [((1, 1), 2), ((0, 0), 4), ((0, 2), -7)]⟩) :=
  c8_serialize_format _ (by decide)

/-! ## Parsing failure lemmas -/

theorem headerLineBad_none (l : List Char) (h : headerLineBad l = true) :
    parseHeaderLine l = none := by
  unfold headerLineBad at h
  unfold parseHeaderLine
  cases hs : splitEq (pyStrip l) with
  | nil => rfl
  | cons a t =>
    cases t with
    | nil => rfl
    | cons p t2 =>
      rw [hs] at h
      have h2 : (pyInt p).isNone = true := h
      rw [Option.isNone_iff_eq_none] at h2
      exact h2

theorem entryLineBad_none (l : List Char) (h : entryLineBad l = true) :
    pyStrip l ≠ [] ∧ parseEntryLine (pyStrip l) = none := by
  unfold entryLineBad at h
  rw [Bool.and_eq_true] at h
  obtain ⟨h1, h2⟩ := h
  constructor
  · intro hc
    rw [hc] at h1
    cases h1
  · unfold parseEntryLine
    cases hs : splitCS (stripParens (pyStrip l)) with
    | nil => rfl
    | cons x t1 =>
      cases t1 with
      | nil => rfl
      | cons y t2 =>
        cases t2 with
        | nil => rfl
        | cons z t3 =>
          cases t3 with
          | cons w t4 => rfl
          | nil =>
            rw [hs] at h2
            have h3 : ((pyInt x).isNone || (pyInt y).isNone || (pyInt z).isNone)
                = true := h2
            show (do
              let r ← pyInt x
              let cc ← pyInt y
              let v ← pyInt z
              some ((r, cc), v)) = none
            rw [Bool.or_eq_true, Bool.or_eq_true] at h3
            rcases h3 with (hx | hy) | hz
            · rw [Option.isNone_iff_eq_none] at hx
              rw [hx]
              rfl
            · rw [Option.isNone_iff_eq_none] at hy
              cases hpx : pyInt x with
              | none => rfl
              | some a2 =>
                rw [hy]
                rfl
            · rw [Option.isNone_iff_eq_none] at hz
              cases hpx : pyInt x with
              | none => rfl
              | some a2 =>
                cases hpy : pyInt y with
                | none => rfl
                | some b2 =>
                  rw [hz]
                  rfl

theorem parseEntries_bad (ls : List (List Char)) : ∀ (acc : Entries),
    (∃ l ∈ ls, entryLineBad l = true) → parseEntries acc ls = none := by
  induction ls with
  | nil =>
    intro acc h
    obtain ⟨l, hl, _⟩ := h
    cases hl
  | cons l0 rest ih =>
    intro acc h
    obtain ⟨l, hl, hbad⟩ := h
    rw [parseEntries]
    rcases List.mem_cons.mp hl with h1 | h1
    · subst h1
      obtain ⟨hne, hpe⟩ := entryLineBad_none l hbad
      rw [if_neg hne, hpe]
    · by_cases hs : pyStrip l0 = []
      · rw [if_pos hs]
        exact ih _ ⟨l, h1, hbad⟩
      · rw [if_neg hs]
        cases hp : parseEntryLine (pyStrip l0) with
        | none => rfl
        | some ev =>
          obtain ⟨⟨kr, kc⟩, v⟩ := ev
          exact ih _ ⟨l, h1, hbad⟩

/-- C7 counterexample: the claim requires a FormatError for every text
with an entry line that is not a bracketed comma-space triple, but the
parser strips parenthesis characters leniently, so this unbracketed
line is accepted and a matrix is returned. -/
theorem c7_counterexample :
    read_matrix_from_file (String.toList "rows=1\ncols=3\n0, 1, 5") =
      .ok (1, 3, [((0, 1), 5)]) ∧
    specEntryLineWellFormed (String.toList "0, 1, 5") = false :=
  ⟨by decide, by decide⟩

/-- C7 amended: construction fails with the format error, returning no
matrix, whenever the first or second line has no field after the first
equals sign or a field that is not a Python integer literal, or some
later non-blank line, after stripping leading and trailing parenthesis
characters, does not split at comma-space separators into exactly
three Python integer literals. -/
theorem c7_amended_parse_failures (text : List Char)
    (h : headerLineBad ((splitNL text).getD 0 []) = true ∨
      headerLineBad ((splitNL text).getD 1 []) = true ∨
      ∃ l ∈ (splitNL text).drop 2, entryLineBad l = true) :
    read_matrix_from_file text = .error .formatError := by
  simp only [read_matrix_from_file]
  rcases h with h | h | h
  · rw [headerLineBad_none _ h]
  · cases h0 : parseHeaderLine ((splitNL text).getD 0 []) with
    | none => rfl
    | some r => rw [headerLineBad_none _ h]
  · cases h0 : parseHeaderLine ((splitNL text).getD 0 []) with
    | none => rfl
    | some r =>
      cases h1 : parseHeaderLine ((splitNL text).getD 1 []) with
      | none => rfl
      | some c =>
        rw [parseEntries_bad _ _ h]

theorem c7_amended_parse_failures_witness :
    read_matrix_from_file (String.toList "rows=1\ncols=1\n(1, 2)\n")
      = .error .formatError :=
  c7_amended_parse_failures _ (by decide)

/-! ## Heap frame lemmas -/

theorem foldl_frame {α : Type} (step : Heap → α → Heap) (rr : Nat)
    (hstep : ∀ (h : Heap) (x : α) (i : Nat), i ≠ rr → (step h x)[i]? = h[i]?) :
    ∀ (L : List α) (h : Heap) (i : Nat), i ≠ rr → (L.foldl step h)[i]? = h[i]? := by
  intro L
  induction L with
  | nil => intro h i _; rfl
  | cons x t ih =>
    intro h i hi
    rw [List.foldl_cons, ih _ _ hi, hstep h x i hi]

theorem hSetElement_getElem?_ne (h : Heap) (rr : Nat) (row col v : Int) (i : Nat)
    (hi : i ≠ rr) : (hSetElement h rr row col v)[i]? = h[i]? := by
  unfold hSetElement hSet
  exact List.getElem?_set_ne (fun hc => hi hc.symm)

theorem heapGet_eq_of_getElem? (h1 h0 : Heap) (i : Nat) (h : h1[i]? = h0[i]?) :
    heapGet h1 i = heapGet h0 i := by
  unfold heapGet
  rw [List.getD_eq_getElem?_getD, List.getD_eq_getElem?_getD, h]

theorem twoFold_frame (rr : Nat) (f : Int → Int → Int) (L1 L2 : Entries)
    (hinit : Heap) (i : Nat) (hi : i ≠ rr) :
    (L2.foldl (fun h e => hSetElement h rr e.1.1 e.1.2
        (f ((heapGet h rr).get_element e.1.1 e.1.2) e.2))
      (L1.foldl (fun h e => hSetElement h rr e.1.1 e.1.2 e.2) hinit))[i]? = hinit[i]? := by
  rw [foldl_frame _ rr
    (fun h e j hj => hSetElement_getElem?_ne h _ _ _ _ j hj) _ _ _ hi]
  rw [foldl_frame _ rr
    (fun h e j hj => hSetElement_getElem?_ne h _ _ _ _ j hj) _ _ _ hi]

theorem mulFold_frame (rr a b : Nat) (is2 js : List Nat) (hinit : Heap) (i : Nat)
    (hi : i ≠ rr) :
    (is2.foldl (fun h i2 =>
      js.foldl (fun h3 j2 =>
        if dotProd (heapGet h3 a) (heapGet h3 b) (i2 : Int) (j2 : Int) ≠ 0 then
          hSetElement h3 rr (i2 : Int) (j2 : Int)
            (dotProd (heapGet h3 a) (heapGet h3 b) (i2 : Int) (j2 : Int))
        else h3) h) hinit)[i]? = hinit[i]? := by
  apply foldl_frame
  · intro h x k hk
    apply foldl_frame
    · intro h3 j2 k2 hk2
      dsimp only
      split
      · exact hSetElement_getElem?_ne h3 _ _ _ _ k2 hk2
      · rfl
    · exact hk
  · exact hi

/-- C10: on the heap embedding, every successful add, subtract or
multiply call allocates its result at a fresh reference, distinct from
both operand references, and leaves every pre-existing object — in
particular both operands — unchanged in the returned heap. -/
theorem c10_frame (h0 : Heap) (a b : Nat) (ha : a < h0.length) (hb : b < h0.length) :
    (∀ (h1 : Heap) (r : Nat), addH h0 a b = .ok (h1, r) →
      r = h0.length ∧ r ≠ a ∧ r ≠ b ∧ (∀ i, i < h0.length → h1[i]? = h0[i]?) ∧
      heapGet h1 a = heapGet h0 a ∧ heapGet h1 b = heapGet h0 b) ∧
    (∀ (h1 : Heap) (r : Nat), subtractH h0 a b = .ok (h1, r) →
      r = h0.length ∧ r ≠ a ∧ r ≠ b ∧ (∀ i, i < h0.length → h1[i]? = h0[i]?) ∧
      heapGet h1 a = heapGet h0 a ∧ heapGet h1 b = heapGet h0 b) ∧
    (∀ (h1 : Heap) (r : Nat), multiplyH h0 a b = .ok (h1, r) →
      r = h0.length ∧ r ≠ a ∧ r ≠ b ∧ (∀ i, i < h0.length → h1[i]? = h0[i]?) ∧
      heapGet h1 a = heapGet h0 a ∧ heapGet h1 b = heapGet h0 b) := by
  refine ⟨?_, ?_, ?_⟩
  · intro h1 r hok
    simp only [addH] at hok
    by_cases hg : (heapGet h0 a).rows ≠ (heapGet h0 b).rows ∨
        (heapGet h0 a).cols ≠ (heapGet h0 b).cols
    · rw [if_pos hg] at hok
      cases hok
    · rw [if_neg hg] at hok
      injection hok with h2
      rw [Prod.mk.injEq] at h2
      obtain ⟨hh, hr⟩ := h2
      subst hh
      subst hr
      refine ⟨rfl, by omega, by omega, ?_, ?_, ?_⟩
      · intro i hi
        exact (twoFold_frame h0.length (fun x y => x + y) _ _ _ i (by omega)).trans
          (List.getElem?_append_left hi)
      · exact heapGet_eq_of_getElem? _ _ a
          ((twoFold_frame h0.length (fun x y => x + y) _ _ _ a (by omega)).trans
            (List.getElem?_append_left ha))
      · exact heapGet_eq_of_getElem? _ _ b
          ((twoFold_frame h0.length (fun x y => x + y) _ _ _ b (by omega)).trans
            (List.getElem?_append_left hb))
  · intro h1 r hok
    simp only [subtractH] at hok
    by_cases hg : (heapGet h0 a).rows ≠ (heapGet h0 b).rows ∨
        (heapGet h0 a).cols ≠ (heapGet h0 b).cols
    · rw [if_pos hg] at hok
      cases hok
    · rw [if_neg hg] at hok
      injection hok with h2
      rw [Prod.mk.injEq] at h2
      obtain ⟨hh, hr⟩ := h2
      subst hh
      subst hr
      refine ⟨rfl, by omega, by omega, ?_, ?_, ?_⟩
      · intro i hi
        exact (twoFold_frame h0.length (fun x y => x - y) _ _ _ i (by omega)).trans
          (List.getElem?_append_left hi)
      · exact heapGet_eq_of_getElem? _ _ a
          ((twoFold_frame h0.length (fun x y => x - y) _ _ _ a (by omega)).trans
            (List.getElem?_append_left ha))
      · exact heapGet_eq_of_getElem? _ _ b
          ((twoFold_frame h0.length (fun x y => x - y) _ _ _ b (by omega)).trans
            (List.getElem?_append_left hb))
  · intro h1 r hok
    simp only [multiplyH] at hok
    by_cases hg : (heapGet h0 a).cols ≠ (heapGet h0 b).rows
    · rw [if_pos hg] at hok
      cases hok
    · rw [if_neg hg] at hok
      injection hok with h2
      rw [Prod.mk.injEq] at h2
      obtain ⟨hh, hr⟩ := h2
      subst hh
      subst hr
      refine ⟨rfl, by omega, by omega, ?_, ?_, ?_⟩
      · intro i hi
        exact (mulFold_frame h0.length a b _ _ _ i (by omega)).trans
          (List.getElem?_append_left hi)
      · exact heapGet_eq_of_getElem? _ _ a
          ((mulFold_frame h0.length a b _ _ _ a (by omega)).trans
            (List.getElem?_append_left ha))
      · exact heapGet_eq_of_getElem? _ _ b
          ((mulFold_frame h0.length a b _ _ _ b (by omega)).trans
            (List.getElem?_append_left hb))

theorem c10_frame_witness :
    addH [(⟨1, 1, [((0, 0), 2)]⟩ : SparseMatrix), ⟨1, 1, [((0, 0), 3)]⟩] 0 1 =
      .ok ([⟨1, 1, [((0, 0), 2)]⟩, ⟨1, 1, [((0, 0), 3)]⟩, ⟨1, 1, [((0, 0), 5)]⟩], 2) ∧
    ((∀ (h1 : Heap) (r : Nat),
      addH [(⟨1, 1, [((0, 0), 2)]⟩ : SparseMatrix), ⟨1, 1, [((0, 0), 3)]⟩] 0 1
        = .ok (h1, r) →
      r = ([(⟨1, 1, [((0, 0), 2)]⟩ : SparseMatrix), ⟨1, 1, [((0, 0), 3)]⟩] : Heap).length ∧
      r ≠ 0 ∧ r ≠ 1 ∧
      (∀ i, i < ([(⟨1, 1, [((0, 0), 2)]⟩ : SparseMatrix),
          ⟨1, 1, [((0, 0), 3)]⟩] : Heap).length →
        h1[i]? = ([(⟨1, 1, [((0, 0), 2)]⟩ : SparseMatrix), ⟨1, 1, [((0, 0), 3)]⟩] : Heap)[i]?) ∧
      heapGet h1 0 = heapGet [(⟨1, 1, [((0, 0), 2)]⟩ : SparseMatrix), ⟨1, 1, [((0, 0), 3)]⟩] 0 ∧
      heapGet h1 1
        = heapGet [(⟨1, 1, [((0, 0), 2)]⟩ : SparseMatrix), ⟨1, 1, [((0, 0), 3)]⟩] 1) ∧
    (∀ (h1 : Heap) (r : Nat),
      subtractH [(⟨1, 1, [((0, 0), 2)]⟩ : SparseMatrix), ⟨1, 1, [((0, 0), 3)]⟩] 0 1
        = .ok (h1, r) →
      r = ([(⟨1, 1, [((0, 0), 2)]⟩ : SparseMatrix), ⟨1, 1, [((0, 0), 3)]⟩] : Heap).length ∧
      r ≠ 0 ∧ r ≠ 1 ∧
      (∀ i, i < ([(⟨1, 1, [((0, 0), 2)]⟩ : SparseMatrix),
          ⟨1, 1, [((0, 0), 3)]⟩] : Heap).length →
        h1[i]? = ([(⟨1, 1, [((0, 0), 2)]⟩ : SparseMatrix), ⟨1, 1, [((0, 0), 3)]⟩] : Heap)[i]?) ∧
      heapGet h1 0 = heapGet [(⟨1, 1, [((0, 0), 2)]⟩ : SparseMatrix), ⟨1, 1, [((0, 0), 3)]⟩] 0 ∧
      heapGet h1 1
        = heapGet [(⟨1, 1, [((0, 0), 2)]⟩ : SparseMatrix), ⟨1, 1, [((0, 0), 3)]⟩] 1) ∧
    (∀ (h1 : Heap) (r : Nat),
      multiplyH [(⟨1, 1, [((0, 0), 2)]⟩ : SparseMatrix), ⟨1, 1, [((0, 0), 3)]⟩] 0 1
        = .ok (h1, r) →
      r = ([(⟨1, 1, [((0, 0), 2)]⟩ : SparseMatrix), ⟨1, 1, [((0, 0), 3)]⟩] : Heap).length ∧
      r ≠ 0 ∧ r ≠ 1 ∧
      (∀ i, i < ([(⟨1, 1, [((0, 0), 2)]⟩ : SparseMatrix),
          ⟨1, 1, [((0, 0), 3)]⟩] : Heap).length →
        h1[i]? = ([(⟨1, 1, [((0, 0), 2)]⟩ : SparseMatrix), ⟨1, 1, [((0, 0), 3)]⟩] : Heap)[i]?) ∧
      heapGet h1 0 = heapGet [(⟨1, 1, [((0, 0), 2)]⟩ : SparseMatrix), ⟨1, 1, [((0, 0), 3)]⟩] 0 ∧
      heapGet h1 1
        = heapGet [(⟨1, 1, [((0, 0), 2)]⟩ : SparseMatrix), ⟨1, 1, [((0, 0), 3)]⟩] 1)) :=
  ⟨by decide, c10_frame _ 0 1 (by decide) (by decide)⟩

example : splitCS (String.toList "0, 1, -5") = [['0'], ['1'], ['-', '5']] := by decide

example : pyInt (String.toList " -42 ") = some (-42) := by decide

example : read_matrix_from_file (String.toList "rows=2\ncols=2\n(0, 0, 1)\n(1, 1, 2)\n") =
    .ok (2, 2, [((0, 0), 1), ((1, 1), 2)]) := by decide

example : intToChars (-120) = String.toList "-120" := by decide

example : write_matrix_to_file ⟨2, 2, [((1, 1), 2), ((0, 0), 4), ((0, 1), 4)]⟩ =
    String.toList "rows=2\ncols=2\n(0, 0, 4)\n(0, 1, 4)\n(1, 1, 2)\n" := by decide

end SpMat
